import Mathlib

/-!
Verification of the bitsery archive core (`src/include/bitsery/details/`).

The development shallow-embeds:
  * the byte-level codec of `lazy_vector_memory_output_archive::serialize` and
    `memory_view_input_archive::serialize` (scalars are written as their raw
    little-endian memory bytes; the host of the source is little-endian),
  * the structural dispatcher of `archive.h` (the family of free `serialize`
    overloads), as a pair of functions `saveVal` / `loadVal` over a deep
    universe `Ty` of participating static types and `Value` of runtime values,
  * the owning buffers (`memory_output_archive`, `memory_input_archive`),
  * the polymorphic registry (`registry.h`) and the polymorphic
    `std::unique_ptr` serialization entry points,
  * the compile-time identifier hash `make_id` (`registry.h`) together with a
    canonical SHA-1 specification to compare it against.

Machine integers are modelled as `Nat` with explicit reductions `% 2 ^ w`
exactly where the C++ code truncates (casts to `size_type`, `uint32_t`
arithmetic, ...).  A byte buffer is a `List Nat` whose entries are `< 256`.
-/

namespace Bitsery

/-- The error taxonomy of `common.h`: `out_of_range`,
`undeclared_polymorphic_type_error`, `attempt_to_serialize_null_pointer_error`,
`polymorphic_type_mismatch_error`; `badCast` stands for the `std::bad_cast`
thrown by a failing `dynamic_cast` inside a registered save method. -/
inductive Err where
  | outOfRange
  | undeclaredPolymorphicType
  | attemptToSerializeNullPointer
  | polymorphicTypeMismatch
  | badCast
deriving DecidableEq, Repr

/-! ### Raw byte codec

`lazy_vector_memory_output_archive::serialize(Item &&)` copies the
`sizeof(item)` memory bytes of the scalar into the sink; on the little-endian
host those are the base-256 digits of the value, least significant first.
`memory_view_input_archive::serialize(Item &&)` copies them back. -/

/-- The `w` memory bytes of the scalar value `v` (little-endian host order);
high bits of `v` beyond `w` bytes are not represented, matching a `w`-byte
machine integer. -/
def toBytesLE : Nat → Nat → List Nat
  | 0, _ => []
  | w + 1, v => v % 256 :: toBytesLE w (v / 256)

/-- Reassemble a scalar from its little-endian memory bytes. -/
def fromBytesLE : List Nat → Nat
  | [] => 0
  | b :: bs => b + 256 * fromBytesLE bs

/-- State of a `memory_view_input_archive`: borrowed input bytes
(`m_input` / `m_size`) and the cursor `m_offset`. -/
structure RState where
  input : List Nat
  offset : Nat
deriving Repr

/-- `memory_view_input_archive::serialize`: if
`m_size < (sizeof(item) + m_offset)` an `out_of_range` error is raised and the
state is untouched; otherwise `w` bytes are copied out from the cursor and the
offset advances by `w`.  Both the scalar overload (with `w = sizeof(Item)`)
and the binary-data overload (with `w = size`) have this exact body. -/
def viewRead (w : Nat) (st : RState) : Option (List Nat) × RState × Option Err :=
  if st.input.length < w + st.offset then
    (none, st, some .outOfRange)
  else
    (some ((st.input.drop st.offset).take w), { st with offset := st.offset + w }, none)

/-! ### The universe of serialized static types

Each constructor is one branch of the structural dispatcher of `archive.h`
(the `serialize_item` overloads of `archive::operator()` plus the free
`serialize` overloads):

* `fund w` – a fundamental scalar of `sizeof = w`;
* `enum w` – an enumeration whose underlying integral type has `sizeof = w`
  (serialized via `reinterpret_cast` to the underlying type);
* `seq t` – a resizable container taking the per-element overloads
  (`size/begin/end/resize`, element a class type or iteration not
  random-access);
* `seqFast w` – a resizable contiguous container of fundamental/enum elements
  of `sizeof = w`, taking the `as_binary` bulk overloads;
* `assoc t` – an associative container (`size/begin/end`, `value_type`,
  `key_type`, no resize); its iteration order is its sorted element order;
* `arr t n` – a fixed-size array (`Item[n]` or `std::array<Item, n>`);
* `pair a b` – `std::pair`;
* `tup0` / `tupCons a rest` – `std::tuple`, as head component plus tail tuple
  (components are dispatched left-to-right by `archive(std::get<Indices>(tuple)...)`);
* `owning t` – a non-polymorphic owning handle (`std::unique_ptr` /
  `std::shared_ptr`, identical serialize bodies);
* `hook t` – a user type whose member / free `serialize` hook dispatches its
  fields (of shape `t`) back into the archive. -/
inductive Ty where
  | fund (w : Nat)
  | enum (w : Nat)
  | seq (t : Ty)
  | seqFast (w : Nat)
  | assoc (t : Ty)
  | arr (t : Ty) (n : Nat)
  | pair (a b : Ty)
  | tup0
  | tupCons (head tail : Ty)
  | owning (t : Ty)
  | hook (t : Ty)
deriving Repr, DecidableEq

/-- Runtime values inhabiting the universe: machine scalars, container
contents in iteration order, pair/tuple components, owning handles (full or
empty), and the empty tuple. -/
inductive Value where
  | nat (n : Nat)
  | unit
  | list (vs : List Value)
  | pair (a b : Value)
  | box (v : Value)
  | null
deriving Repr

/-- The scalar payload of a `Value` (machine integer contents). -/
def scalarOf : Value → Nat
  | .nat n => n
  | _ => 0

theorem scalarOf_nat (n : Nat) : scalarOf (.nat n) = n := rfl

/-- `size_type` of `common.h` is `std::uint32_t`: casting a `size_t` to it
keeps the value modulo `2 ^ 32`. -/
def toSizeType (n : Nat) : Nat := n % 2 ^ 32

/-- Save a run of container elements with the element serializer `f`
(the `for (auto & item : container) archive(item);` loops); an exception
from an element stops the run, keeping the bytes already written. -/
def saveElems (f : Value → List Nat × Option Err) : List Value → List Nat × Option Err
  | [] => ([], none)
  | v :: vs =>
    match f v with
    | (b, some e) => (b, some e)
    | (b, none) =>
      match saveElems f vs with
      | (bs, e) => (b ++ bs, e)

/-- Load `n` container elements with the element loader `f` (the loading
loops after `container.resize(size)`); an exception propagates with the
reader state it was raised in. -/
def loadElems (f : RState → Option Value × RState × Option Err) :
    Nat → RState → Option (List Value) × RState × Option Err
  | 0, st => (some [], st, none)
  | n + 1, st =>
    match f st with
    | (some v, st', none) =>
      match loadElems f n st' with
      | (some vs, st'', none) => (some (v :: vs), st'', none)
      | (_, st'', e) => (none, st'', e)
    | (_, st', e) => (none, st', e)

/-- Comparison used as the strict-weak order of the associative containers;
values of the same shape compare componentwise, values of different shape by
an arbitrary constructor rank.  Any concrete `std::less`-style order can be
transported onto this one; only its total-order laws matter. -/
def rankV : Value → Nat
  | .nat _ => 0
  | .unit => 1
  | .list _ => 2
  | .pair _ _ => 3
  | .box _ => 4
  | .null => 5

mutual

def cmpV : Value → Value → Ordering
  | .nat a, .nat b => compare a b
  | .unit, .unit => .eq
  | .list as, .list bs => cmpListV as bs
  | .pair a b, .pair c d => (cmpV a c).then (cmpV b d)
  | .box a, .box b => cmpV a b
  | .null, .null => .eq
  | a, b => compare (rankV a) (rankV b)
termination_by v _ => sizeOf v

def cmpListV : List Value → List Value → Ordering
  | [], [] => .eq
  | [], _ :: _ => .lt
  | _ :: _, [] => .gt
  | a :: as, b :: bs => (cmpV a b).then (cmpListV as bs)
termination_by l _ => sizeOf l

end

/-- `insert` of the associative containers on their canonical sorted element
list: the element is placed at its upper bound (after existing equivalent
elements), as `std::multiset::insert` / `std::set::insert` do. -/
def insertSorted (v : Value) : List Value → List Value
  | [] => [v]
  | h :: t => if cmpV v h = .lt then v :: h :: t else h :: insertSorted v t

/-- Load a run of associative-container elements: each iteration
default-constructs a temporary, loads into it, and move-inserts it into the
container being built (`archive.h`, associative loading overload). -/
def loadAssocElems (f : RState → Option Value × RState × Option Err) :
    Nat → RState → List Value → Option (List Value) × RState × Option Err
  | 0, st, acc => (some acc, st, none)
  | n + 1, st, acc =>
    match f st with
    | (some v, st', none) => loadAssocElems f n st' (insertSorted v acc)
    | (_, st', e) => (none, st', e)

/-- Decode `n` scalars of width `w` from the raw element storage written back
by the bulk `as_binary` read; storage beyond the copied bytes is the
zero-value-initialized tail left by `resize` (`fromBytesLE [] = 0`). -/
def bytesToScalars (w : Nat) : Nat → List Nat → List Value
  | 0, _ => []
  | n + 1, bs => .nat (fromBytesLE (bs.take w)) :: bytesToScalars w n (bs.drop w)

/-- The saving direction of the structural dispatcher: the composition of
`archive::operator()` / `serialize_item` with the free `serialize` overloads
of `archive.h`, emitting the byte stream passed to the sink.  Returns the
bytes written before any exception together with the exception. -/
def saveVal : Ty → Value → List Nat × Option Err
  | .fund w, v => (toBytesLE w (scalarOf v), none)
  | .enum w, v => (toBytesLE w (scalarOf v), none)
  | .seq t, v =>
    -- archive(static_cast<size_type>(container.size())); per-element loop
    let vs := match v with | .list vs => vs | _ => []
    let hd := toBytesLE 4 (toSizeType vs.length)
    match saveElems (fun x => saveVal t x) vs with
    | (bs, e) => (hd ++ bs, e)
  | .seqFast w, v =>
    -- auto size = static_cast<size_type>(container.size()); archive(size);
    -- if (!size) return; archive(as_binary(&container[0], size_type(size)));
    let vs := match v with | .list vs => vs | _ => []
    let size := toSizeType vs.length
    let hd := toBytesLE 4 size
    if size = 0 then (hd, none)
    else
      -- binary<Item>::size_in_bytes() = size_type(m_count * sizeof(Item)):
      -- the copied byte count is the product reduced to uint32.
      let storage := (vs.map fun x => toBytesLE w (scalarOf x)).flatten
      (hd ++ storage.take (toSizeType (size * w)), none)
  | .assoc t, v =>
    let vs := match v with | .list vs => vs | _ => []
    let hd := toBytesLE 4 (toSizeType vs.length)
    match saveElems (fun x => saveVal t x) vs with
    | (bs, e) => (hd ++ bs, e)
  | .arr t _, v =>
    let vs := match v with | .list vs => vs | _ => []
    saveElems (fun x => saveVal t x) vs
  | .pair a b, v =>
    let x := match v with | .pair x _ => x | _ => .unit
    let y := match v with | .pair _ y => y | _ => .unit
    match saveVal a x with
    | (b1, some e) => (b1, some e)
    | (b1, none) =>
      match saveVal b y with
      | (b2, e) => (b1 ++ b2, e)
  | .tup0, _ => ([], none)
  | .tupCons a r, v =>
    let x := match v with | .pair x _ => x | _ => .unit
    let y := match v with | .pair _ y => y | _ => .unit
    match saveVal a x with
    | (b1, some e) => (b1, some e)
    | (b1, none) =>
      match saveVal r y with
      | (b2, e) => (b1 ++ b2, e)
  | .owning t, v =>
    -- if (nullptr == object) throw attempt_to_serialize_null_pointer_error();
    -- archive(*object);
    match v with
    | .box x => saveVal t x
    | _ => ([], some .attemptToSerializeNullPointer)
  | .hook t, v => saveVal t v

/-- The loading direction of the structural dispatcher over a
`memory_view_input_archive` state. -/
def loadVal : Ty → RState → Option Value × RState × Option Err
  | .fund w, st =>
    match viewRead w st with
    | (some bs, st', none) => (some (.nat (fromBytesLE bs)), st', none)
    | (_, st', e) => (none, st', e)
  | .enum w, st =>
    match viewRead w st with
    | (some bs, st', none) => (some (.nat (fromBytesLE bs)), st', none)
    | (_, st', e) => (none, st', e)
  | .seq t, st =>
    -- size_type size = 0; archive(size); container.resize(size); loop
    match viewRead 4 st with
    | (some bs, st', none) =>
      match loadElems (fun s => loadVal t s) (fromBytesLE bs) st' with
      | (some vs, st'', none) => (some (.list vs), st'', none)
      | (_, st'', e) => (none, st'', e)
    | (_, st', e) => (none, st', e)
  | .seqFast w, st =>
    -- archive(size); container.resize(size); if (!size) return;
    -- archive(as_binary(&container[0], size_type(container.size())));
    match viewRead 4 st with
    | (some bs, st', none) =>
      let size := fromBytesLE bs
      if size = 0 then (some (.list []), st', none)
      else
        match viewRead (toSizeType (size * w)) st' with
        | (some raw, st'', none) => (some (.list (bytesToScalars w size raw)), st'', none)
        | (_, st'', e) => (none, st'', e)
    | (_, st', e) => (none, st', e)
  | .assoc t, st =>
    match viewRead 4 st with
    | (some bs, st', none) =>
      match loadAssocElems (fun s => loadVal t s) (fromBytesLE bs) st' [] with
      | (some vs, st'', none) => (some (.list vs), st'', none)
      | (_, st'', e) => (none, st'', e)
    | (_, st', e) => (none, st', e)
  | .arr t n, st =>
    match loadElems (fun s => loadVal t s) n st with
    | (some vs, st', none) => (some (.list vs), st', none)
    | (_, st', e) => (none, st', e)
  | .pair a b, st =>
    match loadVal a st with
    | (some x, st', none) =>
      match loadVal b st' with
      | (some y, st'', none) => (some (.pair x y), st'', none)
      | (_, st'', e) => (none, st'', e)
    | (_, st', e) => (none, st', e)
  | .tup0, st => (some .unit, st, none)
  | .tupCons a r, st =>
    match loadVal a st with
    | (some x, st', none) =>
      match loadVal r st' with
      | (some y, st'', none) => (some (.pair x y), st'', none)
      | (_, st'', e) => (none, st'', e)
    | (_, st', e) => (none, st', e)
  | .owning t, st =>
    -- auto loaded_object = access::make_unique<Type>(); archive(*loaded_object);
    -- object.reset(loaded_object.release());
    match loadVal t st with
    | (some x, st', none) => (some (.box x), st', none)
    | (_, st', e) => (none, st', e)
  | .hook t, st => loadVal t st

/-! ### Well-formed values

`wfb t v` states that `v` is a C++ value of the static type `t`: scalars fit
their width, fixed arrays have their length, associative containers hold
their elements in sorted iteration order, owning handles are full (an empty
handle is representable — `Value.null` — but is not a *serializable* value;
see the null-rejection claim). -/

/-- All-pairs boolean sortedness by `cmpV` (no element strictly greater than
a later one) of an associative container's iteration order. -/
def pairwiseLeb : List Value → Bool
  | [] => true
  | v :: vs => (vs.all fun w => cmpV v w ≠ .gt) && pairwiseLeb vs

def wfb : Ty → Value → Bool
  | .fund w, .nat n => decide (n < 2 ^ (8 * w))
  | .enum w, .nat n => decide (n < 2 ^ (8 * w))
  | .seq t, .list vs => vs.all fun v => wfb t v
  | .seqFast w, .list vs =>
    vs.all fun v => match v with | .nat n => decide (n < 2 ^ (8 * w)) | _ => false
  | .assoc t, .list vs => (vs.all fun v => wfb t v) && pairwiseLeb vs
  | .arr t n, .list vs => decide (vs.length = n) && (vs.all fun v => wfb t v)
  | .pair a b, .pair x y => wfb a x && wfb b y
  | .tup0, .unit => true
  | .tupCons a r, .pair x y => wfb a x && wfb r y
  | .owning t, .box v => wfb t v
  | .hook t, v => wfb t v
  | _, _ => false

/-- All container sizes reachable inside the value are below `2 ^ 32`, and on
the contiguous fast path the raw byte count `size * sizeof(elem)` also is, so
that no `size_type` narrowing truncates. -/
def sizeOkb : Ty → Value → Bool
  | .seq t, .list vs => decide (vs.length < 2 ^ 32) && (vs.all fun v => sizeOkb t v)
  | .seqFast w, .list vs => decide (vs.length < 2 ^ 32) && decide (vs.length * w < 2 ^ 32)
  | .assoc t, .list vs => decide (vs.length < 2 ^ 32) && (vs.all fun v => sizeOkb t v)
  | .arr t _, .list vs => vs.all fun v => sizeOkb t v
  | .pair a b, .pair x y => sizeOkb a x && sizeOkb b y
  | .tupCons a r, .pair x y => sizeOkb a x && sizeOkb r y
  | .owning t, .box v => sizeOkb t v
  | .hook t, v => sizeOkb t v
  | _, _ => true

/-! ### Basic codec lemmas -/

theorem toBytesLE_length (w v : Nat) : (toBytesLE w v).length = w := by
  induction w generalizing v with
  | zero => rfl
  | succ w ih => simp [toBytesLE, ih]

theorem fromBytesLE_toBytesLE (w v : Nat) (h : v < 2 ^ (8 * w)) :
    fromBytesLE (toBytesLE w v) = v := by
  induction w generalizing v with
  | zero => simp [toBytesLE, fromBytesLE]; omega
  | succ w ih =>
    have h256 : (256 : Nat) ^ w = 2 ^ (8 * w) := by
      rw [show (256 : Nat) = 2 ^ 8 by norm_num, ← pow_mul]
    have hv : v / 256 < 2 ^ (8 * w) := by
      rw [Nat.div_lt_iff_lt_mul (by norm_num)]
      calc v < 2 ^ (8 * (w + 1)) := h
        _ = 2 ^ (8 * w) * 256 := by rw [Nat.mul_succ, pow_add]; norm_num
    simp only [toBytesLE, fromBytesLE, ih _ hv]
    omega

theorem toBytesLE_lt (w v : Nat) : ∀ b ∈ toBytesLE w v, b < 256 := by
  induction w generalizing v with
  | zero => simp [toBytesLE]
  | succ w ih =>
    intro b hb
    simp only [toBytesLE, List.mem_cons] at hb
    rcases hb with h | h
    · omega
    · exact ih _ _ h

theorem fromBytesLE_lt (bs : List Nat) (h : ∀ b ∈ bs, b < 256) :
    fromBytesLE bs < 2 ^ (8 * bs.length) := by
  induction bs with
  | nil => simp [fromBytesLE]
  | cons b bs ih =>
    have hb : b < 256 := h b (List.mem_cons_self ..)
    have hrec := ih fun x hx => h x (List.mem_cons_of_mem _ hx)
    simp only [fromBytesLE, List.length_cons]
    have : 2 ^ (8 * (bs.length + 1)) = 2 ^ (8 * bs.length) * 256 := by
      rw [Nat.mul_succ, pow_add]; norm_num
    omega

/-! ### Reader lemmas -/

theorem viewRead_spec (w : Nat) (pre bs rest : List Nat) (hb : bs.length = w) :
    viewRead w ⟨pre ++ bs ++ rest, pre.length⟩ =
      (some bs, ⟨pre ++ bs ++ rest, pre.length + w⟩, none) := by
  have hlen : (pre ++ bs ++ rest).length = pre.length + w + rest.length := by
    simp [hb]; omega
  rw [viewRead]
  rw [if_neg (by simp only [not_lt, hlen]; omega)]
  have hdrop : (pre ++ bs ++ rest).drop pre.length = bs ++ rest := by
    rw [List.append_assoc, List.drop_left]
  have htake : (bs ++ rest).take w = bs := by
    rw [← hb, List.take_left]
  simp [hdrop, htake]

theorem viewRead_fail (w : Nat) (st : RState) (h : st.input.length < w + st.offset) :
    viewRead w st = (none, st, some .outOfRange) := by
  rw [viewRead, if_pos h]

theorem viewRead_input (w : Nat) (st : RState) : ((viewRead w st).2.1).input = st.input := by
  rw [viewRead]; split <;> rfl

theorem viewRead_offset_le (w : Nat) (st : RState) (h : st.offset ≤ st.input.length) :
    st.offset ≤ ((viewRead w st).2.1).offset ∧
      ((viewRead w st).2.1).offset ≤ st.input.length := by
  rw [viewRead]
  split
  · exact ⟨le_refl _, h⟩
  · next hc => simp only [not_lt] at hc; exact ⟨by simp, by simp; omega⟩

/-! ### The associative-container order is a total order (swap law) -/

theorem nat_compare_swap (a b : Nat) : compare b a = (compare a b).swap := by
  simp only [Nat.compare_def_lt]
  split_ifs <;> first | rfl | omega

theorem Ordering_then_swap (o1 o2 : Ordering) : (o1.then o2).swap = o1.swap.then o2.swap := by
  cases o1 <;> cases o2 <;> rfl

mutual

theorem cmpV_swap : (v w : Value) → cmpV w v = (cmpV v w).swap
  | .nat a, .nat b => by simp only [cmpV]; exact nat_compare_swap a b
  | .unit, .unit => by simp only [cmpV]; rfl
  | .list as, .list bs => by simp only [cmpV]; exact cmpListV_swap as bs
  | .pair a b, .pair c d => by
    simp only [cmpV, cmpV_swap a c, cmpV_swap b d, Ordering_then_swap]
  | .box a, .box b => by simp only [cmpV]; exact cmpV_swap a b
  | .null, .null => by simp only [cmpV]; rfl
  | .nat _, .unit => by simp only [cmpV, rankV]; decide
  | .nat _, .list _ => by simp only [cmpV, rankV]; decide
  | .nat _, .pair _ _ => by simp only [cmpV, rankV]; decide
  | .nat _, .box _ => by simp only [cmpV, rankV]; decide
  | .nat _, .null => by simp only [cmpV, rankV]; decide
  | .unit, .nat _ => by simp only [cmpV, rankV]; decide
  | .unit, .list _ => by simp only [cmpV, rankV]; decide
  | .unit, .pair _ _ => by simp only [cmpV, rankV]; decide
  | .unit, .box _ => by simp only [cmpV, rankV]; decide
  | .unit, .null => by simp only [cmpV, rankV]; decide
  | .list _, .nat _ => by simp only [cmpV, rankV]; decide
  | .list _, .unit => by simp only [cmpV, rankV]; decide
  | .list _, .pair _ _ => by simp only [cmpV, rankV]; decide
  | .list _, .box _ => by simp only [cmpV, rankV]; decide
  | .list _, .null => by simp only [cmpV, rankV]; decide
  | .pair _ _, .nat _ => by simp only [cmpV, rankV]; decide
  | .pair _ _, .unit => by simp only [cmpV, rankV]; decide
  | .pair _ _, .list _ => by simp only [cmpV, rankV]; decide
  | .pair _ _, .box _ => by simp only [cmpV, rankV]; decide
  | .pair _ _, .null => by simp only [cmpV, rankV]; decide
  | .box _, .nat _ => by simp only [cmpV, rankV]; decide
  | .box _, .unit => by simp only [cmpV, rankV]; decide
  | .box _, .list _ => by simp only [cmpV, rankV]; decide
  | .box _, .pair _ _ => by simp only [cmpV, rankV]; decide
  | .box _, .null => by simp only [cmpV, rankV]; decide
  | .null, .nat _ => by simp only [cmpV, rankV]; decide
  | .null, .unit => by simp only [cmpV, rankV]; decide
  | .null, .list _ => by simp only [cmpV, rankV]; decide
  | .null, .pair _ _ => by simp only [cmpV, rankV]; decide
  | .null, .box _ => by simp only [cmpV, rankV]; decide
termination_by v _ => sizeOf v

theorem cmpListV_swap : (l m : List Value) → cmpListV m l = (cmpListV l m).swap
  | [], [] => by simp only [cmpListV]; rfl
  | [], _ :: _ => by simp only [cmpListV]; rfl
  | _ :: _, [] => by simp only [cmpListV]; rfl
  | a :: as, b :: bs => by
    simp only [cmpListV, cmpV_swap a b, cmpListV_swap as bs, Ordering_then_swap]
termination_by l _ => sizeOf l

end

/-- If `v` is no smaller than every element already present, the
upper-bound insertion appends `v` at the back. -/
theorem insertSorted_append (v : Value) (l : List Value)
    (h : ∀ x ∈ l, cmpV x v ≠ .gt) : insertSorted v l = l ++ [v] := by
  induction l with
  | nil => rfl
  | cons a l ih =>
    have ha : cmpV a v ≠ .gt := h a (List.mem_cons_self ..)
    have : cmpV v a ≠ .lt := by
      rw [cmpV_swap a v]
      intro hc
      cases he : cmpV a v <;> rw [he] at hc <;> simp [Ordering.swap] at hc
      exact ha he
    rw [insertSorted, if_neg this, ih fun x hx => h x (List.mem_cons_of_mem _ hx)]
    rfl

/-- Re-inserting an already-sorted run of elements, one by one in iteration
order, reproduces it: the loading loop of the associative containers is the
identity on the saved iteration order. -/
theorem loadAssoc_insert_sorted (acc l : List Value)
    (h : pairwiseLeb (acc ++ l) = true) :
    l.foldl (fun c v => insertSorted v c) acc = acc ++ l := by
  induction l generalizing acc with
  | nil => simp
  | cons v l ih =>
    have hins : insertSorted v acc = acc ++ [v] := by
      apply insertSorted_append
      intro x hx
      -- extract the (x, v) constraint from all-pairs sortedness of acc ++ v :: l
      clear ih
      induction acc with
      | nil => cases hx
      | cons a acc ihacc =>
        simp only [List.cons_append, pairwiseLeb, Bool.and_eq_true, List.all_eq_true] at h
        rcases List.mem_cons.mp hx with rfl | hx'
        · have := h.1 v (by simp)
          simpa using this
        · exact ihacc h.2 hx'
    rw [List.foldl_cons, hins]
    have : (acc ++ [v]) ++ l = acc ++ v :: l := by simp
    rw [ih (acc ++ [v]) (by rw [this]; exact h)]
    simp

/-! ### Round-trip machinery -/

/-- `v` round-trips through the element serializer `sv` and element loader
`ld`: saving raises no exception, and loading the saved bytes from any cursor
position reconstructs `v` and advances the cursor by exactly the saved
length. -/
def RtP (sv : Value → List Nat × Option Err)
    (ld : RState → Option Value × RState × Option Err) (v : Value) : Prop :=
  (sv v).2 = none ∧
  ∀ pre rest, ld ⟨pre ++ (sv v).1 ++ rest, pre.length⟩ =
    (some v, ⟨pre ++ (sv v).1 ++ rest, pre.length + (sv v).1.length⟩, none)

theorem saveElems_sound (f : Value → List Nat × Option Err) (vs : List Value)
    (h : ∀ v ∈ vs, (f v).2 = none) :
    saveElems f vs = ((vs.map fun v => (f v).1).flatten, none) := by
  induction vs with
  | nil => rfl
  | cons v vs ih =>
    have hv : (f v).2 = none := h v (List.mem_cons_self ..)
    have ih' := ih fun x hx => h x (List.mem_cons_of_mem _ hx)
    rcases hfe : f v with ⟨b, e⟩
    rw [hfe] at hv
    simp only at hv
    subst hv
    simp [saveElems, hfe, ih']

theorem loadElems_sound (f : Value → List Nat × Option Err)
    (g : RState → Option Value × RState × Option Err) (vs : List Value)
    (h : ∀ v ∈ vs, RtP f g v) :
    ∀ pre rest : List Nat,
      loadElems g vs.length ⟨pre ++ ((vs.map fun v => (f v).1).flatten) ++ rest, pre.length⟩ =
        (some vs,
          ⟨pre ++ ((vs.map fun v => (f v).1).flatten) ++ rest,
            pre.length + ((vs.map fun v => (f v).1).flatten).length⟩, none) := by
  induction vs with
  | nil => intro pre rest; simp [loadElems]
  | cons v vs ih =>
    intro pre rest
    have hv := h v (List.mem_cons_self ..)
    have hsh : pre ++ (((v :: vs).map fun v => (f v).1).flatten) ++ rest
        = (pre ++ (f v).1) ++ ((vs.map fun v => (f v).1).flatten ++ rest) := by
      simp
    have hv2 := hv.2 pre ((vs.map fun v => (f v).1).flatten ++ rest)
    rw [List.append_assoc] at hv2
    have ih' := ih (fun x hx => h x (List.mem_cons_of_mem _ hx)) (pre ++ (f v).1) rest
    simp only [List.length_append, List.append_assoc] at ih'
    simp only [List.length_cons, List.map_cons, List.flatten_cons, loadElems,
      List.append_assoc] at hv2 ⊢
    rw [hv2]
    simp only [List.length_append] at hv2 ⊢
    rw [ih']
    simp only [List.map_cons, List.flatten_cons, List.length_append, List.append_assoc,
      Nat.add_assoc]

theorem loadAssocElems_sound (f : Value → List Nat × Option Err)
    (g : RState → Option Value × RState × Option Err) (vs : List Value)
    (h : ∀ v ∈ vs, RtP f g v) :
    ∀ (pre rest : List Nat) (acc : List Value),
      loadAssocElems g vs.length ⟨pre ++ ((vs.map fun v => (f v).1).flatten) ++ rest, pre.length⟩ acc =
        (some (vs.foldl (fun c v => insertSorted v c) acc),
          ⟨pre ++ ((vs.map fun v => (f v).1).flatten) ++ rest,
            pre.length + ((vs.map fun v => (f v).1).flatten).length⟩, none) := by
  induction vs with
  | nil => intro pre rest acc; simp [loadAssocElems]
  | cons v vs ih =>
    intro pre rest acc
    have hv := h v (List.mem_cons_self ..)
    have hv2 := hv.2 pre ((vs.map fun v => (f v).1).flatten ++ rest)
    rw [List.append_assoc] at hv2
    have ih' := ih (fun x hx => h x (List.mem_cons_of_mem _ hx)) (pre ++ (f v).1) rest
        (insertSorted v acc)
    simp only [List.length_append, List.append_assoc] at ih'
    simp only [List.length_cons, List.map_cons, List.flatten_cons, loadAssocElems,
      List.append_assoc] at hv2 ⊢
    rw [hv2]
    simp only [List.length_append]
    rw [ih']
    simp only [List.map_cons, List.flatten_cons, List.length_append, List.append_assoc,
      List.foldl_cons, Nat.add_assoc]

theorem bytesToScalars_flatten (w : Nat) (vs : List Value)
    (h : ∀ v ∈ vs, ∃ n, v = .nat n ∧ n < 2 ^ (8 * w)) :
    bytesToScalars w vs.length ((vs.map fun v => toBytesLE w (scalarOf v)).flatten) = vs := by
  induction vs with
  | nil => rfl
  | cons v vs ih =>
    obtain ⟨n, rfl, hn⟩ := h v (List.mem_cons_self ..)
    have ih' := ih fun x hx => h x (List.mem_cons_of_mem _ hx)
    simp only [List.length_cons, List.map_cons, List.flatten_cons, bytesToScalars, scalarOf_nat]
    have htake : ((toBytesLE w n ++ (vs.map fun v => toBytesLE w (scalarOf v)).flatten).take w)
        = toBytesLE w n := List.take_left' (toBytesLE_length w n)
    have hdrop : ((toBytesLE w n ++ (vs.map fun v => toBytesLE w (scalarOf v)).flatten).drop w)
        = (vs.map fun v => toBytesLE w (scalarOf v)).flatten :=
      List.drop_left' (toBytesLE_length w n)
    rw [htake, hdrop, ih', fromBytesLE_toBytesLE w n hn]

/-! ### Helper forms with explicit input-shape hypotheses -/

theorem viewRead_at (w : Nat) (input pre bs rest : List Nat) (ofs : Nat)
    (hi : input = pre ++ bs ++ rest) (ho : ofs = pre.length) (hb : bs.length = w) :
    viewRead w ⟨input, ofs⟩ = (some bs, ⟨input, ofs + w⟩, none) := by
  subst hi; subst ho; exact viewRead_spec w pre bs rest hb

theorem RtP_load {sv : Value → List Nat × Option Err}
    {ld : RState → Option Value × RState × Option Err} {v : Value} (h : RtP sv ld v)
    (input pre rest : List Nat) (ofs : Nat)
    (hi : input = pre ++ (sv v).1 ++ rest) (ho : ofs = pre.length) :
    ld ⟨input, ofs⟩ = (some v, ⟨input, ofs + (sv v).1.length⟩, none) := by
  subst hi; subst ho; exact h.2 pre rest

theorem loadElems_at (f : Value → List Nat × Option Err)
    (g : RState → Option Value × RState × Option Err) (vs : List Value)
    (h : ∀ v ∈ vs, RtP f g v) (n : Nat) (input pre rest : List Nat) (ofs : Nat)
    (hn : n = vs.length)
    (hi : input = pre ++ ((vs.map fun v => (f v).1).flatten) ++ rest) (ho : ofs = pre.length) :
    loadElems g n ⟨input, ofs⟩ =
      (some vs, ⟨input, ofs + ((vs.map fun v => (f v).1).flatten).length⟩, none) := by
  subst hn; subst hi; subst ho; exact loadElems_sound f g vs h pre rest

theorem loadAssocElems_at (f : Value → List Nat × Option Err)
    (g : RState → Option Value × RState × Option Err) (vs : List Value)
    (h : ∀ v ∈ vs, RtP f g v) (n : Nat) (input pre rest : List Nat) (ofs : Nat)
    (acc : List Value) (hn : n = vs.length)
    (hi : input = pre ++ ((vs.map fun v => (f v).1).flatten) ++ rest) (ho : ofs = pre.length) :
    loadAssocElems g n ⟨input, ofs⟩ acc =
      (some (vs.foldl (fun c v => insertSorted v c) acc),
        ⟨input, ofs + ((vs.map fun v => (f v).1).flatten).length⟩, none) := by
  subst hn; subst hi; subst ho; exact loadAssocElems_sound f g vs h pre rest acc

theorem flattenBytes_length (w : Nat) (vs : List Value) :
    ((vs.map fun x => toBytesLE w (scalarOf x)).flatten).length = vs.length * w := by
  induction vs with
  | nil => simp
  | cons v vs ih =>
    simp only [List.map_cons, List.flatten_cons, List.length_append, toBytesLE_length, ih,
      List.length_cons]
    ring

theorem toSizeType_lt (n : Nat) : toSizeType n < 2 ^ 32 :=
  Nat.mod_lt _ (by norm_num)

theorem toSizeType_eq {n : Nat} (h : n < 2 ^ 32) : toSizeType n = n := Nat.mod_eq_of_lt h

theorem fromBytesLE_sizePrefix (n : Nat) :
    fromBytesLE (toBytesLE 4 (toSizeType n)) = toSizeType n :=
  fromBytesLE_toBytesLE 4 (toSizeType n) (by simpa using toSizeType_lt n)

/-! ### The round-trip law of the structural dispatcher -/

theorem rt_main (t : Ty) :
    ∀ v, wfb t v = true → sizeOkb t v = true → RtP (saveVal t) (loadVal t) v := by
  induction t with
  | fund w =>
    intro v h1 hsz
    cases v <;> simp only [wfb] at h1 <;> try exact absurd h1 Bool.false_ne_true
    next n =>
    rw [decide_eq_true_eq] at h1
    refine ⟨rfl, fun pre rest => ?_⟩
    simp only [saveVal, scalarOf_nat]
    rw [loadVal, viewRead_at w _ pre (toBytesLE w n) rest _ (by simp [saveVal, scalarOf_nat])
      rfl (toBytesLE_length w n)]
    simp [fromBytesLE_toBytesLE w n h1, toBytesLE_length]
  | enum w =>
    intro v h1 hsz
    cases v <;> simp only [wfb] at h1 <;> try exact absurd h1 Bool.false_ne_true
    next n =>
    rw [decide_eq_true_eq] at h1
    refine ⟨rfl, fun pre rest => ?_⟩
    simp only [saveVal, scalarOf_nat]
    rw [loadVal, viewRead_at w _ pre (toBytesLE w n) rest _ (by simp [saveVal, scalarOf_nat])
      rfl (toBytesLE_length w n)]
    simp [fromBytesLE_toBytesLE w n h1, toBytesLE_length]
  | seq t ih =>
    intro v h1 h2
    cases v <;> simp only [wfb] at h1 <;> try exact absurd h1 Bool.false_ne_true
    next vs =>
    simp only [sizeOkb, Bool.and_eq_true, decide_eq_true_eq] at h2
    obtain ⟨hlen, h2⟩ := h2
    rw [List.all_eq_true] at h1 h2
    have hrt : ∀ x ∈ vs, RtP (saveVal t) (loadVal t) x := fun x hx => ih x (h1 x hx) (h2 x hx)
    have hsv := saveElems_sound (fun x => saveVal t x) vs (fun x hx => (hrt x hx).1)
    have hsave : saveVal (.seq t) (.list vs)
        = (toBytesLE 4 (toSizeType vs.length) ++ ((vs.map fun x => (saveVal t x).1).flatten),
            none) := by
      simp only [saveVal]
      rw [hsv]
    rw [toSizeType_eq hlen] at hsave
    refine ⟨by rw [hsave], fun pre rest => ?_⟩
    rw [hsave]
    rw [loadVal, viewRead_at 4 _ pre (toBytesLE 4 vs.length)
      (((vs.map fun x => (saveVal t x).1).flatten) ++ rest) _ (by simp) rfl
      (toBytesLE_length ..)]
    simp only [fromBytesLE_toBytesLE 4 vs.length (by simpa using hlen)]
    rw [loadElems_at (fun x => saveVal t x) (fun s => loadVal t s) vs hrt vs.length _
      (pre ++ toBytesLE 4 vs.length)
      rest _ rfl (by simp) (by simp [toBytesLE_length])]
    simp only [List.length_append, toBytesLE_length, Nat.add_assoc]
  | seqFast w =>
    intro v h1 h2
    cases v <;> simp only [wfb] at h1 <;> try exact absurd h1 Bool.false_ne_true
    next vs =>
    simp only [sizeOkb, Bool.and_eq_true, decide_eq_true_eq] at h2
    obtain ⟨hlen, hbytes⟩ := h2
    rw [List.all_eq_true] at h1
    have helems : ∀ x ∈ vs, ∃ n, x = .nat n ∧ n < 2 ^ (8 * w) := by
      intro x hx
      have hh := h1 x hx
      cases x
      case nat n => exact ⟨n, rfl, by simpa using hh⟩
      all_goals exact absurd hh Bool.false_ne_true
    rcases Nat.eq_zero_or_pos vs.length with hz | hpos
    · have hvs : vs = [] := List.length_eq_zero.mp hz
      subst hvs
      refine ⟨by simp [saveVal, toSizeType], fun pre rest => ?_⟩
      simp only [saveVal, List.length_nil, toSizeType, Nat.zero_mod, if_pos rfl]
      rw [loadVal, viewRead_at 4 _ pre (toBytesLE 4 0) rest _ (by simp) rfl (toBytesLE_length ..)]
      have h0 : fromBytesLE (toBytesLE 4 0) = 0 := fromBytesLE_toBytesLE 4 0 (by norm_num)
      simp [h0, toBytesLE_length]
    · have hsz : toSizeType vs.length = vs.length := toSizeType_eq hlen
      have hne : toSizeType vs.length ≠ 0 := by omega
      have hflat := flattenBytes_length w vs
      have hsave : saveVal (.seqFast w) (.list vs)
          = (toBytesLE 4 (toSizeType vs.length)
              ++ ((vs.map fun x => toBytesLE w (scalarOf x)).flatten), none) := by
        simp only [saveVal, if_neg hne]
        rw [hsz]
        rw [toSizeType_eq hbytes]
        rw [List.take_of_length_le (le_of_eq hflat)]
      rw [hsz] at hsave
      refine ⟨by rw [hsave], fun pre rest => ?_⟩
      rw [hsave]
      rw [loadVal, viewRead_at 4 _ pre (toBytesLE 4 vs.length)
        (((vs.map fun x => toBytesLE w (scalarOf x)).flatten) ++ rest) _ (by simp) rfl
        (toBytesLE_length ..)]
      simp only [fromBytesLE_toBytesLE 4 vs.length (by simpa using hlen)]
      rw [if_neg (by omega)]
      rw [viewRead_at (toSizeType (vs.length * w)) _
        (pre ++ toBytesLE 4 vs.length)
        ((vs.map fun x => toBytesLE w (scalarOf x)).flatten) rest _ (by simp)
        (by simp [toBytesLE_length]) (by rw [hflat, toSizeType_eq hbytes])]
      dsimp only
      rw [bytesToScalars_flatten w vs helems]
      simp only [List.length_append, toBytesLE_length, hflat, toSizeType_eq hbytes,
        Nat.add_assoc]
  | assoc t ih =>
    intro v h1 h2
    cases v <;> simp only [wfb] at h1 <;> try exact absurd h1 Bool.false_ne_true
    next vs =>
    simp only [Bool.and_eq_true] at h1
    obtain ⟨h1, hsorted⟩ := h1
    simp only [sizeOkb, Bool.and_eq_true, decide_eq_true_eq] at h2
    obtain ⟨hlen, h2⟩ := h2
    rw [List.all_eq_true] at h1 h2
    have hrt : ∀ x ∈ vs, RtP (saveVal t) (loadVal t) x := fun x hx => ih x (h1 x hx) (h2 x hx)
    have hsv := saveElems_sound (fun x => saveVal t x) vs (fun x hx => (hrt x hx).1)
    have hsave : saveVal (.assoc t) (.list vs)
        = (toBytesLE 4 (toSizeType vs.length) ++ ((vs.map fun x => (saveVal t x).1).flatten),
            none) := by
      simp only [saveVal]
      rw [hsv]
    rw [toSizeType_eq hlen] at hsave
    refine ⟨by rw [hsave], fun pre rest => ?_⟩
    rw [hsave]
    rw [loadVal, viewRead_at 4 _ pre (toBytesLE 4 vs.length)
      (((vs.map fun x => (saveVal t x).1).flatten) ++ rest) _ (by simp) rfl
      (toBytesLE_length ..)]
    simp only [fromBytesLE_toBytesLE 4 vs.length (by simpa using hlen)]
    rw [loadAssocElems_at (fun x => saveVal t x) (fun s => loadVal t s) vs hrt vs.length _
      (pre ++ toBytesLE 4 vs.length) rest _ [] rfl (by simp)
      (by simp [toBytesLE_length])]
    rw [loadAssoc_insert_sorted [] vs (by simpa using hsorted)]
    simp only [List.nil_append, List.length_append, toBytesLE_length, Nat.add_assoc]
  | arr t n ih =>
    intro v h1 h2
    cases v <;> simp only [wfb] at h1 <;> try exact absurd h1 Bool.false_ne_true
    next vs =>
    simp only [Bool.and_eq_true, decide_eq_true_eq] at h1
    obtain ⟨hn, h1⟩ := h1
    simp only [sizeOkb] at h2
    rw [List.all_eq_true] at h1 h2
    have hrt : ∀ x ∈ vs, RtP (saveVal t) (loadVal t) x := fun x hx => ih x (h1 x hx) (h2 x hx)
    have hsv := saveElems_sound (fun x => saveVal t x) vs (fun x hx => (hrt x hx).1)
    have hsave : saveVal (.arr t n) (.list vs)
        = (((vs.map fun x => (saveVal t x).1).flatten), none) := by
      simp only [saveVal]
      rw [hsv]
    refine ⟨by rw [hsave], fun pre rest => ?_⟩
    rw [hsave]
    rw [loadVal, loadElems_at (fun x => saveVal t x) (fun s => loadVal t s) vs hrt n _
      pre rest _ hn.symm rfl rfl]
  | pair a b iha ihb =>
    intro v h1 h2
    cases v <;> simp only [wfb] at h1 <;> try exact absurd h1 Bool.false_ne_true
    next x y =>
    simp only [Bool.and_eq_true] at h1
    simp only [sizeOkb, Bool.and_eq_true] at h2
    have ha := iha x h1.1 h2.1
    have hb := ihb y h1.2 h2.2
    have hsave : saveVal (.pair a b) (.pair x y)
        = ((saveVal a x).1 ++ (saveVal b y).1, none) := by
      rcases hxa : saveVal a x with ⟨ba, ea⟩
      rcases hxb : saveVal b y with ⟨bb, eb⟩
      have h1a := ha.1; rw [hxa] at h1a; simp only at h1a; subst h1a
      have h1b := hb.1; rw [hxb] at h1b; simp only at h1b; subst h1b
      simp [saveVal, hxa, hxb]
    refine ⟨by rw [hsave], fun pre rest => ?_⟩
    rw [hsave]
    dsimp only
    rw [loadVal, RtP_load ha _ pre ((saveVal b y).1 ++ rest) _ (by simp) rfl]
    dsimp only
    rw [RtP_load hb _ (pre ++ (saveVal a x).1) rest _ (by simp) (by simp)]
    simp only [List.length_append, Nat.add_assoc]
  | tup0 =>
    intro v h1 hsz
    cases v <;> simp only [wfb] at h1 <;> try exact absurd h1 Bool.false_ne_true
    refine ⟨rfl, fun pre rest => ?_⟩
    simp [saveVal, loadVal]
  | tupCons a r iha ihr =>
    intro v h1 h2
    cases v <;> simp only [wfb] at h1 <;> try exact absurd h1 Bool.false_ne_true
    next x y =>
    simp only [Bool.and_eq_true] at h1
    simp only [sizeOkb, Bool.and_eq_true] at h2
    have ha := iha x h1.1 h2.1
    have hb := ihr y h1.2 h2.2
    have hsave : saveVal (.tupCons a r) (.pair x y)
        = ((saveVal a x).1 ++ (saveVal r y).1, none) := by
      rcases hxa : saveVal a x with ⟨ba, ea⟩
      rcases hxb : saveVal r y with ⟨bb, eb⟩
      have h1a := ha.1; rw [hxa] at h1a; simp only at h1a; subst h1a
      have h1b := hb.1; rw [hxb] at h1b; simp only at h1b; subst h1b
      simp [saveVal, hxa, hxb]
    refine ⟨by rw [hsave], fun pre rest => ?_⟩
    rw [hsave]
    dsimp only
    rw [loadVal, RtP_load ha _ pre ((saveVal r y).1 ++ rest) _ (by simp) rfl]
    dsimp only
    rw [RtP_load hb _ (pre ++ (saveVal a x).1) rest _ (by simp) (by simp)]
    simp only [List.length_append, Nat.add_assoc]
  | owning t ih =>
    intro v h1 h2
    cases v <;> simp only [wfb] at h1 <;> try exact absurd h1 Bool.false_ne_true
    next x =>
    simp only [sizeOkb] at h2
    have hx := ih x h1 h2
    have hsave : saveVal (.owning t) (.box x) = saveVal t x := by simp [saveVal]
    refine ⟨by rw [hsave]; exact hx.1, fun pre rest => ?_⟩
    rw [hsave]
    rw [loadVal, RtP_load hx _ pre rest _ rfl rfl]
  | hook t ih =>
    intro v h1 h2
    simp only [wfb] at h1
    simp only [sizeOkb] at h2
    have hx := ih v h1 h2
    refine ⟨?_, fun pre rest => ?_⟩
    · simp only [saveVal]; exact hx.1
    · simp only [saveVal, loadVal]
      exact hx.2 pre rest

/-! ### Reader-state invariants: the loader only moves the cursor forward,
never past the end, and never touches the input bytes -/

/-- A loading step keeps the input unchanged and moves the offset
monotonically without passing the end of the input. -/
def StepOk {α : Type} (g : RState → α × RState × Option Err) : Prop :=
  ∀ st : RState, st.offset ≤ st.input.length →
    (g st).2.1.input = st.input ∧ st.offset ≤ (g st).2.1.offset ∧
      (g st).2.1.offset ≤ st.input.length

theorem viewRead_stepOk (w : Nat) : StepOk (viewRead w) := by
  intro st h
  exact ⟨viewRead_input w st, (viewRead_offset_le w st h).1, (viewRead_offset_le w st h).2⟩

theorem loadElems_stepOk (g : RState → Option Value × RState × Option Err)
    (hg : StepOk g) (n : Nat) : StepOk (loadElems g n) := by
  induction n with
  | zero => intro st h; exact ⟨rfl, le_refl _, h⟩
  | succ n ih =>
    intro st h
    have hgst := hg st h
    rw [loadElems]
    rcases hge : g st with ⟨ov, st', e⟩
    rw [hge] at hgst
    rcases ov with _ | v
    · exact hgst
    rcases e with _ | e
    · dsimp only
      have hrec := ih st' (by rw [hgst.1]; exact hgst.2.2)
      rcases hle : loadElems g n st' with ⟨ovs, st'', e'⟩
      rw [hle] at hrec
      rw [hgst.1] at hrec
      rcases ovs with _ | vs <;> rcases e' with _ | e' <;>
        exact ⟨hrec.1, le_trans hgst.2.1 hrec.2.1, hrec.2.2⟩
    · exact hgst

theorem loadAssocElems_stepOk (g : RState → Option Value × RState × Option Err)
    (hg : StepOk g) (n : Nat) (acc : List Value) :
    ∀ st : RState, st.offset ≤ st.input.length →
      (loadAssocElems g n st acc).2.1.input = st.input ∧
        st.offset ≤ (loadAssocElems g n st acc).2.1.offset ∧
        (loadAssocElems g n st acc).2.1.offset ≤ st.input.length := by
  induction n generalizing acc with
  | zero => intro st h; exact ⟨rfl, le_refl _, h⟩
  | succ n ih =>
    intro st h
    have hgst := hg st h
    rw [loadAssocElems]
    rcases hge : g st with ⟨ov, st', e⟩
    rw [hge] at hgst
    rcases ov with _ | v
    · exact hgst
    rcases e with _ | e
    · dsimp only
      have hrec := ih (insertSorted v acc) st' (by rw [hgst.1]; exact hgst.2.2)
      rw [hgst.1] at hrec
      exact ⟨hrec.1, le_trans hgst.2.1 hrec.2.1, hrec.2.2⟩
    · exact hgst

theorem loadVal_stepOk (t : Ty) : StepOk (loadVal t) := by
  induction t with
  | fund w =>
    intro st h
    have hv := viewRead_stepOk w st h
    rw [loadVal]
    rcases hge : viewRead w st with ⟨ov, st', e⟩
    rw [hge] at hv
    rcases ov with _ | bs <;> rcases e with _ | e <;> exact hv
  | enum w =>
    intro st h
    have hv := viewRead_stepOk w st h
    rw [loadVal]
    rcases hge : viewRead w st with ⟨ov, st', e⟩
    rw [hge] at hv
    rcases ov with _ | bs <;> rcases e with _ | e <;> exact hv
  | seq t ih =>
    intro st h
    have hv := viewRead_stepOk 4 st h
    rw [loadVal]
    rcases hge : viewRead 4 st with ⟨ov, st', e⟩
    rw [hge] at hv
    rcases ov with _ | bs
    · exact hv
    rcases e with _ | e
    · dsimp only
      have hrec := loadElems_stepOk _ ih (fromBytesLE bs) st' (by rw [hv.1]; exact hv.2.2)
      rcases hle : loadElems (fun s => loadVal t s) (fromBytesLE bs) st' with ⟨ovs, st'', e'⟩
      rw [hle] at hrec
      rw [hv.1] at hrec
      rcases ovs with _ | vs <;> rcases e' with _ | e' <;>
        exact ⟨hrec.1, le_trans hv.2.1 hrec.2.1, hrec.2.2⟩
    · exact hv
  | seqFast w =>
    intro st h
    have hv := viewRead_stepOk 4 st h
    rw [loadVal]
    rcases hge : viewRead 4 st with ⟨ov, st', e⟩
    rw [hge] at hv
    rcases ov with _ | bs
    · exact hv
    rcases e with _ | e
    · dsimp only
      by_cases hz : fromBytesLE bs = 0
      · rw [if_pos hz]
        exact hv
      · rw [if_neg hz]
        have hrec := viewRead_stepOk (toSizeType (fromBytesLE bs * w)) st'
          (by rw [hv.1]; exact hv.2.2)
        rcases hle : viewRead (toSizeType (fromBytesLE bs * w)) st' with ⟨ovs, st'', e'⟩
        rw [hle] at hrec
        rw [hv.1] at hrec
        rcases ovs with _ | raw <;> rcases e' with _ | e' <;>
          exact ⟨hrec.1, le_trans hv.2.1 hrec.2.1, hrec.2.2⟩
    · exact hv
  | assoc t ih =>
    intro st h
    have hv := viewRead_stepOk 4 st h
    rw [loadVal]
    rcases hge : viewRead 4 st with ⟨ov, st', e⟩
    rw [hge] at hv
    rcases ov with _ | bs
    · exact hv
    rcases e with _ | e
    · dsimp only
      have hrec := loadAssocElems_stepOk _ ih (fromBytesLE bs) [] st'
        (by rw [hv.1]; exact hv.2.2)
      rw [hv.1] at hrec
      rcases hle : loadAssocElems (fun s => loadVal t s) (fromBytesLE bs) st' []
        with ⟨ovs, st'', e'⟩
      rw [hle] at hrec
      rcases ovs with _ | vs <;> rcases e' with _ | e' <;>
        exact ⟨hrec.1, le_trans hv.2.1 hrec.2.1, hrec.2.2⟩
    · exact hv
  | arr t n ih =>
    intro st h
    have hrec := loadElems_stepOk _ ih n st h
    rw [loadVal]
    rcases hle : loadElems (fun s => loadVal t s) n st with ⟨ovs, st', e'⟩
    rw [hle] at hrec
    rcases ovs with _ | vs <;> rcases e' with _ | e' <;> exact hrec
  | pair a b iha ihb =>
    intro st h
    have ha := iha st h
    rw [loadVal]
    rcases hge : loadVal a st with ⟨ov, st', e⟩
    rw [hge] at ha
    rcases ov with _ | x
    · exact ha
    rcases e with _ | e
    · dsimp only
      have hb := ihb st' (by rw [ha.1]; exact ha.2.2)
      rw [ha.1] at hb
      rcases hle : loadVal b st' with ⟨oy, st'', e'⟩
      rw [hle] at hb
      rcases oy with _ | y <;> rcases e' with _ | e' <;>
        exact ⟨hb.1, le_trans ha.2.1 hb.2.1, hb.2.2⟩
    · exact ha
  | tup0 =>
    intro st h
    exact ⟨rfl, le_refl _, h⟩
  | tupCons a r iha ihr =>
    intro st h
    have ha := iha st h
    rw [loadVal]
    rcases hge : loadVal a st with ⟨ov, st', e⟩
    rw [hge] at ha
    rcases ov with _ | x
    · exact ha
    rcases e with _ | e
    · dsimp only
      have hb := ihr st' (by rw [ha.1]; exact ha.2.2)
      rw [ha.1] at hb
      rcases hle : loadVal r st' with ⟨oy, st'', e'⟩
      rw [hle] at hb
      rcases oy with _ | y <;> rcases e' with _ | e' <;>
        exact ⟨hb.1, le_trans ha.2.1 hb.2.1, hb.2.2⟩
    · exact ha
  | owning t ih =>
    intro st h
    have ha := ih st h
    rw [loadVal]
    rcases hge : loadVal t st with ⟨ov, st', e⟩
    rw [hge] at ha
    rcases ov with _ | x <;> rcases e with _ | e <;> exact ha
  | hook t ih =>
    intro st h
    have ha := ih st h
    rw [loadVal]
    exact ha

/-! ### The owning input archive (`memory_input_archive`) -/

/-- `memory_input_archive::operator()`: reinitialize the view over the owned
vector (offset zero), load, and — on the success path and in the `catch`
handler alike — erase the consumed prefix `[0, get_offset())` from the vector
and reset the offset to zero, so the next operation starts at byte zero of
the residual buffer. -/
def memory_input_archive_op (input : List Nat) (t : Ty) :
    Option Value × Option Err × List Nat :=
  match loadVal t ⟨input, 0⟩ with
  | (v, st, e) => (v, e, input.drop st.offset)

/-! ### Helpers for the truncation counterexample -/

theorem saveVal_fund1_zero : saveVal (.fund 1) (.nat 0) = ([0], none) := rfl

theorem flatten_replicate_singleton (n a : Nat) :
    (List.replicate n [a]).flatten = List.replicate n a := by
  induction n with
  | zero => rfl
  | succ n ih =>
    rw [List.replicate_succ, List.flatten_cons, ih, List.replicate_succ]
    rfl

/-- The shape of a resizable-container save on the per-element path: the
32-bit length prefix, then the element run. -/
theorem saveVal_seq (t : Ty) (vs : List Value) :
    saveVal (.seq t) (.list vs)
      = (toBytesLE 4 (toSizeType vs.length) ++ (saveElems (fun x => saveVal t x) vs).1,
          (saveElems (fun x => saveVal t x) vs).2) := by
  simp only [saveVal]

theorem loadElems_length (g : RState → Option Value × RState × Option Err) :
    ∀ (n : Nat) (st : RState) (vs : List Value) (st' : RState),
      loadElems g n st = (some vs, st', none) → vs.length = n := by
  intro n
  induction n with
  | zero =>
    intro st vs st' h
    rw [loadElems] at h
    simp only [Prod.mk.injEq, Option.some.injEq] at h
    rw [← h.1]
    rfl
  | succ n ih =>
    intro st vs st' h
    rw [loadElems] at h
    rcases hge : g st with ⟨ov, st1, e⟩
    rw [hge] at h
    rcases ov with _ | v
    · simp at h
    rcases e with _ | e
    · dsimp only at h
      rcases hle : loadElems g n st1 with ⟨ovs, st2, e'⟩
      rw [hle] at h
      rcases ovs with _ | ws
      · simp at h
      rcases e' with _ | e'
      · simp only [Prod.mk.injEq, Option.some.injEq] at h
        rw [← h.1, List.length_cons, ih st1 ws st2 (by rw [hle, h.2.1])]
      · simp at h
    · simp at h

/-! ### The output archives -/

/-- State of `lazy_vector_memory_output_archive`: the backing vector contents
(`*m_output`) and the used size `m_size`. -/
structure OutVec where
  data : List Nat
  msize : Nat

/-- `std::vector::resize(n)`: truncate, or zero-extend (value-initialize) to
length `n`. -/
def resizeList (l : List Nat) (n : Nat) : List Nat :=
  l.take n ++ List.replicate (n - l.length) 0

/-- `lazy_vector_memory_output_archive::serialize` applied to the byte run
`bs`: if `m_size + size > m_output->size()` grow to
`(m_size + size) * 3 / 2`, then copy the bytes at offset `m_size` and advance
`m_size`. -/
def lazy_vector_serialize (a : OutVec) (bs : List Nat) : OutVec :=
  let a' := if a.data.length < a.msize + bs.length then
      { a with data := resizeList a.data ((a.msize + bs.length) * 3 / 2) } else a
  { data := (a'.data.take a.msize) ++ bs ++ a'.data.drop (a.msize + bs.length),
    msize := a.msize + bs.length }

/-- `fit_vector`: `m_output->resize(m_size)`. -/
def fit_vector (a : OutVec) : OutVec := { a with data := resizeList a.data a.msize }

/-- `memory_output_archive::operator()`: serialize the items and fit the
vector to the used size, on the success path and in the `catch` handler
alike.  The per-item writes of one top-level operation are applied as one
run over the emitted byte stream; `lazy_vector_serialize_region` shows the
vector state this produces is the one the item-by-item writes produce. -/
def memory_output_archive_apply (a : OutVec) (r : List Nat × Option Err) :
    OutVec × Option Err :=
  (fit_vector (lazy_vector_serialize a r.1), r.2)

/-- A top-level save of a single value through `memory_output_archive`. -/
def memory_output_archive_op (a : OutVec) (t : Ty) (v : Value) : OutVec × Option Err :=
  memory_output_archive_apply a (saveVal t v)

theorem resizeList_length (l : List Nat) (n : Nat) : (resizeList l n).length = n := by
  simp only [resizeList, List.length_append, List.length_take, List.length_replicate]
  omega

/-- The meaningful region of the sink: the first `m_size` bytes. -/
def region (a : OutVec) : List Nat := a.data.take a.msize

/-- One write appends exactly its bytes to the meaningful region, advances
`m_size` by their count, and preserves the buffer invariant
`m_size ≤ size()`; hence a run of writes is the single write of the
concatenation, up to bytes beyond `m_size` that `fit_vector` discards. -/
theorem lazy_vector_serialize_region (a : OutVec) (bs : List Nat)
    (h : a.msize ≤ a.data.length) :
    region (lazy_vector_serialize a bs) = region a ++ bs ∧
      (lazy_vector_serialize a bs).msize = a.msize + bs.length ∧
      (lazy_vector_serialize a bs).msize ≤ (lazy_vector_serialize a bs).data.length := by
  rcases a with ⟨d, m⟩
  simp only at h
  by_cases hg : d.length < m + bs.length
  · have hlen : (resizeList d ((m + bs.length) * 3 / 2)).length = (m + bs.length) * 3 / 2 :=
      resizeList_length ..
    have h32 : m + bs.length ≤ (m + bs.length) * 3 / 2 := by omega
    have htk : (resizeList d ((m + bs.length) * 3 / 2)).take m = d.take m := by
      simp only [resizeList]
      rw [List.take_append_of_le_length (by simp only [List.length_take]; omega)]
      rw [List.take_take, min_eq_left (by omega)]
    have hst : lazy_vector_serialize ⟨d, m⟩ bs =
        ⟨d.take m ++ bs ++ (resizeList d ((m + bs.length) * 3 / 2)).drop (m + bs.length),
          m + bs.length⟩ := by
      simp only [lazy_vector_serialize]
      rw [if_pos hg]
      dsimp only
      rw [htk]
    rw [hst]
    refine ⟨?_, rfl, ?_⟩
    · simp only [region]
      rw [List.take_left' (by simp only [List.length_append, List.length_take]; omega)]
    · simp only [List.length_append, List.length_take, List.length_drop, hlen]
      omega
  · have hst : lazy_vector_serialize ⟨d, m⟩ bs =
        ⟨d.take m ++ bs ++ d.drop (m + bs.length), m + bs.length⟩ := by
      simp only [lazy_vector_serialize]
      rw [if_neg hg]
    rw [hst]
    push_neg at hg
    refine ⟨?_, rfl, ?_⟩
    · simp only [region]
      rw [List.take_left' (by simp only [List.length_append, List.length_take]; omega)]
    · simp only [List.length_append, List.length_take, List.length_drop]
      omega

/-- Writing nothing and fitting leaves a length-invariant vector unchanged. -/
theorem memory_output_archive_apply_nil (a : OutVec) (e : Option Err)
    (hinv : a.data.length = a.msize) :
    memory_output_archive_apply a ([], e) = (a, e) := by
  rcases a with ⟨d, m⟩
  simp only at hinv
  have h1 : lazy_vector_serialize ⟨d, m⟩ [] = ⟨d, m⟩ := by
    simp only [lazy_vector_serialize, List.length_nil, Nat.add_zero]
    rw [if_neg (by omega)]
    simp [List.take_append_drop]
  have h2 : fit_vector ⟨d, m⟩ = ⟨d, m⟩ := by
    subst hinv
    simp [fit_vector, resizeList, List.take_length]
  rw [memory_output_archive_apply, h1, h2]

/-! ### The polymorphic registry (`registry.h`) -/

/-- A serialization method made by `make_serialization_method<Archive, Type>`:
determined by the concrete registered `Type` — its runtime type descriptor
(`typeid(Type).name()`, modelled as a number) and the static shape of its
payload.  The saving method `dynamic_cast`s the passed object to `Type` and
dispatches it; the loading method constructs a `Type`, dispatches into it and
installs it in the out handle. -/
structure SMethod where
  descriptor : Nat
  ty : Ty
deriving DecidableEq

/-- A polymorphic object: its dynamic type descriptor (`typeid(object)`)
and its payload. -/
structure PolyObj where
  descriptor : Nat
  payload : Value

/-- `std::unordered_map::emplace`: insert only if the key is absent; an
existing mapping is never replaced. -/
def emplace {β : Type} (m : List (Nat × β)) (k : Nat) (v : β) : List (Nat × β) :=
  if (m.lookup k).isSome then m else (k, v) :: m

/-- `emplace` never disturbs a key that already resolves. -/
theorem emplace_lookup_preserved {β : Type} (l : List (Nat × β)) (k k' : Nat) (v : β)
    (h : (l.lookup k').isSome) : (emplace l k v).lookup k' = l.lookup k' := by
  rw [emplace]
  split
  · rfl
  · next habs =>
    have hne : (k' == k) = false := by
      rcases Nat.decEq k' k with hne | rfl
      · simpa using hne
      · exact absurd h habs
    simp [List.lookup, hne]

/-- The registry state: `m_serialization_id_to_method` and
`m_type_information_to_serialization_id` (type-information strings are
modelled as numbers). -/
structure Registry where
  idToMethod : List (Nat × SMethod)
  typeToId : List (Nat × Nat)

/-- `registry::add(id, type_information_string, serialization_method)`:
under the writer lock, `emplace` into both maps.  Total — it raises no
error. -/
def registry_add (r : Registry) (id : Nat) (desc : Nat) (m : SMethod) : Registry :=
  { idToMethod := emplace r.idToMethod id m,
    typeToId := emplace r.typeToId desc id }

/-- `registry::serialize` on a saving archive: find the id by the dynamic
type descriptor of the object, find the method by the id (failures raise
`undeclared_polymorphic_type_error` before anything is written), release the
lock, write the `id_type` (8 raw bytes), and invoke the saving method, which
is `archive(dynamic_cast<const Type &>(object))`. -/
def registry_serialize_saving (r : Registry) (obj : PolyObj) : List Nat × Option Err :=
  match r.typeToId.lookup obj.descriptor with
  | none => ([], some .undeclaredPolymorphicType)
  | some id =>
    match r.idToMethod.lookup id with
    | none => ([], some .undeclaredPolymorphicType)
    | some m =>
      if m.descriptor = obj.descriptor then
        match saveVal m.ty obj.payload with
        | (bs, e) => (toBytesLE 8 id ++ bs, e)
      else
        (toBytesLE 8 id, some .badCast)

/-- `registry::serialize` on a loading archive: read the 8 `id_type` bytes,
find the method by the id (`undeclared_polymorphic_type_error` when absent),
release the lock, and invoke the loading method, which constructs the
registered concrete type, loads into it, and installs it in the out
handle. -/
def registry_serialize_loading (r : Registry) (st : RState) :
    Option PolyObj × RState × Option Err :=
  match viewRead 8 st with
  | (some bs, st', none) =>
    match r.idToMethod.lookup (fromBytesLE bs) with
    | none => (none, st', some .undeclaredPolymorphicType)
    | some m =>
      match loadVal m.ty st' with
      | (some v, st'', none) => (some ⟨m.descriptor, v⟩, st'', none)
      | (_, st'', e) => (none, st'', e)
  | (_, st', e) => (none, st', e)

/-- `serialize(Archive &, const std::unique_ptr<Type> &)` for polymorphic
`Type` on a saving archive (the `std::shared_ptr` and `polymorphic_wrapper`
overloads share this body): reject a null handle before the registry is
consulted, otherwise defer to the registry. -/
def serialize_unique_ptr_poly_saving (r : Registry) (object : Option PolyObj) :
    List Nat × Option Err :=
  match object with
  | none => ([], some .attemptToSerializeNullPointer)
  | some obj => registry_serialize_saving r obj

/-- `serialize(Archive &, std::unique_ptr<Type> &)` for polymorphic `Type` on
a loading archive: load through the registry into a local
`unique_ptr<polymorphic>`, then `dynamic_cast` the loaded object to the
requested static `Type`.  On success the caller's handle takes ownership; on
`std::bad_cast` the loaded object is destroyed with the local handle, the
caller's handle stays untouched, and `polymorphic_type_mismatch_error` is
raised.  `canCastToType` models `dynamic_cast<Type &>` succeeding on the
loaded dynamic type. -/
def serialize_unique_ptr_poly_loading (r : Registry) (canCastToType : Nat → Bool)
    (st : RState) (object : Option PolyObj) :
    Option PolyObj × RState × Option Err :=
  match registry_serialize_loading r st with
  | (some loaded, st', none) =>
    if canCastToType loaded.descriptor then (some loaded, st', none)
    else (object, st', some .polymorphicTypeMismatch)
  | (_, st', e) => (object, st', e)

/-! ### Overload guards of the resizable-container `serialize` family -/

/-- Compile-time capabilities of a resizable container (one with
`size/begin/end/resize`), as tested by the SFINAE guards of the four
resizable-container overloads. -/
structure ContainerCaps where
  valueTypeIsClass : Bool
  valueTypeIsFundamentalOrEnum : Bool
  randomAccessIterator : Bool
  hasDataMemberFunction : Bool

/-- A serializable element type is either a class type (user hooks, nested
containers, ...) or a fundamental/enumeration type — exactly one of the
two. -/
def ContainerCaps.wf (c : ContainerCaps) : Bool :=
  c.valueTypeIsClass.xor c.valueTypeIsFundamentalOrEnum

/-- Guard of the per-element loading overload:
`is_class<value_type> || !is_base_of<random_access_iterator_tag, ...>`. -/
def resizable_slow_loading_applicable (c : ContainerCaps) : Bool :=
  c.valueTypeIsClass || !c.randomAccessIterator

/-- Guard of the per-element saving overload: `is_class<value_type> ||
!random_access || !has_data_member_function`. -/
def resizable_slow_saving_applicable (c : ContainerCaps) : Bool :=
  c.valueTypeIsClass || !c.randomAccessIterator || !c.hasDataMemberFunction

/-- Guard of the contiguous fast overloads, identical for loading and saving:
`decltype(container.data())` must exist, the element type must be fundamental
or an enumeration, and the iterator random-access. -/
def resizable_fast_applicable (c : ContainerCaps) : Bool :=
  c.hasDataMemberFunction && c.valueTypeIsFundamentalOrEnum && c.randomAccessIterator

/-! ### The identifier hash: byte swapping and rotation (`common.h`)

`detail::swap_byte_order` on the three multi-byte unsigned widths (the
one-byte overload is the identity) and `detail::rotate_left` instantiated
at `uint32_t`.  Machine words are `Nat`; a narrowing conversion
`uintN(v)` is `v % 2 ^ N`, and a shift that can overflow its width is
followed by the explicit `% 2 ^ N` of the C++ wrap-around. -/

/-- `swap_byte_order(uint16_t)`: `(uint16(uint8(v)) << 8) | uint8(v >> 8)`. -/
def swap_byte_order16 (v : Nat) : Nat :=
  ((v % 2 ^ 8) <<< 8) ||| ((v >>> 8) % 2 ^ 8)

/-- `swap_byte_order(uint32_t)`: `(uint32(swap16(uint16(v))) << 16) |
swap16(uint16(v >> 16))`. -/
def swap_byte_order32 (v : Nat) : Nat :=
  ((swap_byte_order16 (v % 2 ^ 16)) <<< 16) ||| swap_byte_order16 ((v >>> 16) % 2 ^ 16)

/-- `swap_byte_order(uint64_t)`: `(uint64(swap32(uint32(v))) << 32) |
swap32(uint32(v >> 32))`. -/
def swap_byte_order64 (v : Nat) : Nat :=
  ((swap_byte_order32 (v % 2 ^ 32)) <<< 32) ||| swap_byte_order32 ((v >>> 32) % 2 ^ 32)

/-- `detail::rotate_left` at `Integer = uint32_t`:
`(number << count) | (number >> (32 - count))`, the left shift wrapping at
32 bits. -/
def rotate_left (v c : Nat) : Nat :=
  ((v <<< c) % 2 ^ 32) ||| (v >>> (32 - c))

/-- Bit `i` of `swap_byte_order16 v` in terms of the bits of `v`
(unconditional: bits at positions 16 and above of the result are clear). -/
theorem testBit_swap16 (v i : Nat) :
    (swap_byte_order16 v).testBit i =
      if i < 8 then v.testBit (i + 8)
      else if i < 16 then v.testBit (i - 8)
      else false := by
  simp only [swap_byte_order16, Nat.testBit_lor, Nat.testBit_shiftLeft,
    Nat.testBit_mod_two_pow, Nat.testBit_shiftRight]
  rcases Nat.lt_or_ge i 8 with h8 | h8
  · simp only [if_pos h8]
    have : ¬ (8 ≤ i) := by omega
    simp [this, h8, Nat.add_comm 8 i]
  · rcases Nat.lt_or_ge i 16 with h16 | h16
    · have : ¬ (i < 8) := by omega
      simp [this, h8, h16, show i - 8 < 8 by omega]
    · have h1 : ¬ (i < 8) := by omega
      have h2 : ¬ (i - 8 < 8) := by omega
      simp [h1, h2, h8, show ¬ (i < 16) by omega]

/-- Bit `i` of `swap_byte_order32 v` in terms of the bits of `v`. -/
theorem testBit_swap32 (v i : Nat) :
    (swap_byte_order32 v).testBit i =
      if i < 8 then v.testBit (i + 24)
      else if i < 16 then v.testBit (i + 8)
      else if i < 24 then v.testBit (i - 8)
      else if i < 32 then v.testBit (i - 24)
      else false := by
  simp only [swap_byte_order32, swap_byte_order16, Nat.testBit_lor,
    Nat.testBit_shiftLeft, Nat.testBit_mod_two_pow, Nat.testBit_shiftRight]
  rcases Nat.lt_or_ge i 8 with h8 | h8
  · simp only [if_pos h8]
    simp [show ¬ (16 ≤ i) by omega, show ¬ (8 ≤ i) by omega, h8,
      show 8 + i < 16 by omega]
    congr 1
    omega
  · rcases Nat.lt_or_ge i 16 with h16 | h16
    · simp only [if_neg (by omega : ¬ i < 8), if_pos h16]
      simp [show ¬ (16 ≤ i) by omega, h8, show i - 8 < 8 by omega,
        show i - 8 < 16 by omega, show ¬ (i < 8) by omega]
      congr 1
      omega
    · rcases Nat.lt_or_ge i 24 with h24 | h24
      · simp only [if_neg (by omega : ¬ i < 8), if_neg (by omega : ¬ i < 16),
          if_pos h24]
        simp [h16, show ¬ (8 ≤ i - 16) by omega, show i - 16 < 8 by omega,
          show 8 + (i - 16) < 16 by omega, show ¬ (i < 8) by omega,
          show ¬ (i - 8 < 8) by omega]
        congr 1
        omega
      · rcases Nat.lt_or_ge i 32 with h32 | h32
        · simp only [if_neg (by omega : ¬ i < 8), if_neg (by omega : ¬ i < 16),
            if_neg (by omega : ¬ i < 24), if_pos h32]
          simp [h16, show 8 ≤ i - 16 by omega, show ¬ (i - 16 < 8) by omega,
            show i - 16 - 8 < 8 by omega, show i - 16 - 8 < 16 by omega,
            show ¬ (i < 8) by omega, show ¬ (i - 8 < 8) by omega]
          exact congrArg v.testBit (by omega)
        · simp only [if_neg (by omega : ¬ i < 8), if_neg (by omega : ¬ i < 16),
            if_neg (by omega : ¬ i < 24), if_neg (by omega : ¬ i < 32)]
          simp [h16, show 8 ≤ i - 16 by omega, show ¬ (i - 16 < 8) by omega,
            show ¬ (i - 16 - 8 < 8) by omega, show ¬ (i < 8) by omega,
            show ¬ (i - 8 < 8) by omega]

/-- The bitwise or of two values below `2 ^ n` stays below `2 ^ n`. -/
theorem lor_lt_two_pow {n a b : Nat} (ha : a < 2 ^ n) (hb : b < 2 ^ n) :
    a ||| b < 2 ^ n := by
  apply Nat.lt_pow_two_of_testBit
  intro i hi
  rw [Nat.testBit_lor, Nat.testBit_lt_two_pow (lt_of_lt_of_le ha
    (Nat.pow_le_pow_right (by norm_num) hi)), Nat.testBit_lt_two_pow
    (lt_of_lt_of_le hb (Nat.pow_le_pow_right (by norm_num) hi))]
  rfl

/-- A byte has no bits at position 8 or above. -/
theorem testBit_byte_high {b j : Nat} (hb : b < 256) (hj : 8 ≤ j) :
    b.testBit j = false := by
  apply Nat.testBit_lt_two_pow
  calc b < 256 := hb
    _ = 2 ^ 8 := by norm_num
    _ ≤ 2 ^ j := Nat.pow_le_pow_right (by norm_num) hj

/-- `swap_byte_order32` yields a 32-bit value. -/
theorem swap32_lt (v : Nat) : swap_byte_order32 v < 2 ^ 32 := by
  apply Nat.lt_pow_two_of_testBit
  intro i hi
  rw [testBit_swap32]
  simp [show ¬ i < 8 by omega, show ¬ i < 16 by omega,
    show ¬ i < 24 by omega, show ¬ i < 32 by omega]

/-- `swap_byte_order32` distributes over bitwise or. -/
theorem swap32_lor (a b : Nat) :
    swap_byte_order32 (a ||| b) = swap_byte_order32 a ||| swap_byte_order32 b := by
  apply Nat.eq_of_testBit_eq
  intro i
  rw [Nat.testBit_lor, testBit_swap32, testBit_swap32, testBit_swap32]
  rcases Nat.lt_or_ge i 8 with h | h
  · simp [h, Nat.testBit_lor]
  rcases Nat.lt_or_ge i 16 with h' | h'
  · simp [show ¬ i < 8 by omega, h', Nat.testBit_lor]
  rcases Nat.lt_or_ge i 24 with h'' | h''
  · simp [show ¬ i < 8 by omega, show ¬ i < 16 by omega, h'', Nat.testBit_lor]
  rcases Nat.lt_or_ge i 32 with h''' | h'''
  · simp [show ¬ i < 8 by omega, show ¬ i < 16 by omega,
      show ¬ i < 24 by omega, h''', Nat.testBit_lor]
  · simp [show ¬ i < 8 by omega, show ¬ i < 16 by omega,
      show ¬ i < 24 by omega, show ¬ i < 32 by omega]

/-- `swap_byte_order32` distributes over bitwise xor. -/
theorem swap32_xor (a b : Nat) :
    swap_byte_order32 (a ^^^ b) = swap_byte_order32 a ^^^ swap_byte_order32 b := by
  apply Nat.eq_of_testBit_eq
  intro i
  rw [Nat.testBit_xor, testBit_swap32, testBit_swap32, testBit_swap32]
  rcases Nat.lt_or_ge i 8 with h | h
  · simp [h, Nat.testBit_xor]
  rcases Nat.lt_or_ge i 16 with h' | h'
  · simp [show ¬ i < 8 by omega, h', Nat.testBit_xor]
  rcases Nat.lt_or_ge i 24 with h'' | h''
  · simp [show ¬ i < 8 by omega, show ¬ i < 16 by omega, h'', Nat.testBit_xor]
  rcases Nat.lt_or_ge i 32 with h''' | h'''
  · simp [show ¬ i < 8 by omega, show ¬ i < 16 by omega,
      show ¬ i < 24 by omega, h''', Nat.testBit_xor]
  · simp [show ¬ i < 8 by omega, show ¬ i < 16 by omega,
      show ¬ i < 24 by omega, show ¬ i < 32 by omega]

/-- `swap_byte_order32` is an involution on 32-bit values. -/
theorem swap32_swap32 (v : Nat) (hv : v < 2 ^ 32) :
    swap_byte_order32 (swap_byte_order32 v) = v := by
  apply Nat.eq_of_testBit_eq
  intro i
  rw [testBit_swap32]
  rcases Nat.lt_or_ge i 8 with h | h
  · rw [if_pos h, testBit_swap32, if_neg (by omega : ¬ i + 24 < 8),
      if_neg (by omega : ¬ i + 24 < 16), if_neg (by omega : ¬ i + 24 < 24),
      if_pos (by omega : i + 24 < 32)]
    simp only [Nat.add_sub_cancel]
  rcases Nat.lt_or_ge i 16 with h' | h'
  · rw [if_neg (by omega : ¬ i < 8), if_pos h', testBit_swap32,
      if_neg (by omega : ¬ i + 8 < 8), if_neg (by omega : ¬ i + 8 < 16),
      if_pos (by omega : i + 8 < 24)]
    simp only [Nat.add_sub_cancel]
  rcases Nat.lt_or_ge i 24 with h'' | h''
  · rw [if_neg (by omega : ¬ i < 8), if_neg (by omega : ¬ i < 16),
      if_pos h'', testBit_swap32, if_neg (by omega : ¬ i - 8 < 8),
      if_pos (by omega : i - 8 < 16)]
    congr 1
    omega
  rcases Nat.lt_or_ge i 32 with h''' | h'''
  · rw [if_neg (by omega : ¬ i < 8), if_neg (by omega : ¬ i < 16),
      if_neg (by omega : ¬ i < 24), if_pos h''', testBit_swap32,
      if_pos (by omega : i - 24 < 8)]
    congr 1
    omega
  · rw [if_neg (by omega : ¬ i < 8), if_neg (by omega : ¬ i < 16),
      if_neg (by omega : ¬ i < 24), if_neg (by omega : ¬ i < 32),
      Nat.testBit_lt_two_pow (lt_of_lt_of_le hv
        (Nat.pow_le_pow_right (by norm_num) h'''))]

/-- `swap_byte_order32` of zero. -/
theorem swap32_zero : swap_byte_order32 0 = 0 := by decide

/-- A byte shifted by at most 24 bits needs no 32-bit wrap. -/
theorem byte_shift_mod32 {b : Nat} (hb : b < 256) {s : Nat} (hs : s ≤ 24) :
    (b <<< s) % 2 ^ 32 = b <<< s := by
  apply Nat.mod_eq_of_lt
  rw [Nat.shiftLeft_eq]
  calc b * 2 ^ s ≤ 255 * 2 ^ 24 :=
        Nat.mul_le_mul (by omega) (Nat.pow_le_pow_right (by norm_num) hs)
    _ < 2 ^ 32 := by norm_num

/-- Byte-swapping a byte in the low lane moves it to the high lane. -/
theorem swap32_byte0 {b : Nat} (hb : b < 256) :
    swap_byte_order32 b = b <<< 24 := by
  apply Nat.eq_of_testBit_eq
  intro i
  rw [testBit_swap32, Nat.testBit_shiftLeft]
  rcases Nat.lt_or_ge i 8 with h | h
  · rw [if_pos h, testBit_byte_high hb (by omega),
      decide_eq_false (by omega : ¬ 24 ≤ i), Bool.false_and]
  rcases Nat.lt_or_ge i 16 with h' | h'
  · rw [if_neg (by omega : ¬ i < 8), if_pos h',
      testBit_byte_high hb (by omega),
      decide_eq_false (by omega : ¬ 24 ≤ i), Bool.false_and]
  rcases Nat.lt_or_ge i 24 with h'' | h''
  · rw [if_neg (by omega : ¬ i < 8), if_neg (by omega : ¬ i < 16),
      if_pos h'', testBit_byte_high hb (by omega),
      decide_eq_false (by omega : ¬ 24 ≤ i), Bool.false_and]
  rcases Nat.lt_or_ge i 32 with h''' | h'''
  · rw [if_neg (by omega : ¬ i < 8), if_neg (by omega : ¬ i < 16),
      if_neg (by omega : ¬ i < 24), if_pos h''',
      decide_eq_true (by omega : 24 ≤ i), Bool.true_and]
  · rw [if_neg (by omega : ¬ i < 8), if_neg (by omega : ¬ i < 16),
      if_neg (by omega : ¬ i < 24), if_neg (by omega : ¬ i < 32),
      testBit_byte_high hb (show 8 ≤ i - 24 by omega), Bool.and_false]

/-- Byte-swapping a byte in lane 1 moves it to lane 2. -/
theorem swap32_byte8 {b : Nat} (hb : b < 256) :
    swap_byte_order32 (b <<< 8) = b <<< 16 := by
  apply Nat.eq_of_testBit_eq
  intro i
  rw [testBit_swap32]
  simp only [Nat.testBit_shiftLeft]
  rcases Nat.lt_or_ge i 8 with h | h
  · rw [if_pos h, decide_eq_true (by omega : 8 ≤ i + 24),
      Bool.true_and, testBit_byte_high hb (by omega),
      decide_eq_false (by omega : ¬ 16 ≤ i), Bool.false_and]
  rcases Nat.lt_or_ge i 16 with h' | h'
  · rw [if_neg (by omega : ¬ i < 8), if_pos h',
      decide_eq_true (by omega : 8 ≤ i + 8), Bool.true_and,
      testBit_byte_high hb (by omega),
      decide_eq_false (by omega : ¬ 16 ≤ i), Bool.false_and]
  rcases Nat.lt_or_ge i 24 with h'' | h''
  · rw [if_neg (by omega : ¬ i < 8), if_neg (by omega : ¬ i < 16),
      if_pos h'', decide_eq_true (by omega : 8 ≤ i - 8), Bool.true_and,
      decide_eq_true (by omega : 16 ≤ i), Bool.true_and]
    congr 1
  rcases Nat.lt_or_ge i 32 with h''' | h'''
  · rw [if_neg (by omega : ¬ i < 8), if_neg (by omega : ¬ i < 16),
      if_neg (by omega : ¬ i < 24), if_pos h''',
      decide_eq_false (by omega : ¬ 8 ≤ i - 24), Bool.false_and,
      decide_eq_true (by omega : 16 ≤ i), Bool.true_and,
      testBit_byte_high hb (show 8 ≤ i - 16 by omega)]
  · rw [if_neg (by omega : ¬ i < 8), if_neg (by omega : ¬ i < 16),
      if_neg (by omega : ¬ i < 24), if_neg (by omega : ¬ i < 32),
      decide_eq_true (by omega : 16 ≤ i), Bool.true_and,
      testBit_byte_high hb (show 8 ≤ i - 16 by omega)]

/-- Byte-swapping a byte in lane 2 moves it to lane 1. -/
theorem swap32_byte16 {b : Nat} (hb : b < 256) :
    swap_byte_order32 (b <<< 16) = b <<< 8 := by
  apply Nat.eq_of_testBit_eq
  intro i
  rw [testBit_swap32]
  simp only [Nat.testBit_shiftLeft]
  rcases Nat.lt_or_ge i 8 with h | h
  · rw [if_pos h, decide_eq_true (by omega : 16 ≤ i + 24),
      Bool.true_and, testBit_byte_high hb (by omega),
      decide_eq_false (by omega : ¬ 8 ≤ i), Bool.false_and]
  rcases Nat.lt_or_ge i 16 with h' | h'
  · rw [if_neg (by omega : ¬ i < 8), if_pos h',
      decide_eq_true (by omega : 16 ≤ i + 8), Bool.true_and,
      decide_eq_true (by omega : 8 ≤ i), Bool.true_and]
    congr 1
  rcases Nat.lt_or_ge i 24 with h'' | h''
  · rw [if_neg (by omega : ¬ i < 8), if_neg (by omega : ¬ i < 16),
      if_pos h'', decide_eq_false (by omega : ¬ 16 ≤ i - 8), Bool.false_and,
      decide_eq_true (by omega : 8 ≤ i), Bool.true_and,
      testBit_byte_high hb (show 8 ≤ i - 8 by omega)]
  rcases Nat.lt_or_ge i 32 with h''' | h'''
  · rw [if_neg (by omega : ¬ i < 8), if_neg (by omega : ¬ i < 16),
      if_neg (by omega : ¬ i < 24), if_pos h''',
      decide_eq_true (by omega : 8 ≤ i), Bool.true_and,
      testBit_byte_high hb (show 8 ≤ i - 8 by omega)]
    rcases Nat.lt_or_ge (i - 24) 16 with hc | hc
    · rw [decide_eq_false (by omega : ¬ 16 ≤ i - 24), Bool.false_and]
    · rw [decide_eq_true hc, Bool.true_and,
        testBit_byte_high hb (show 8 ≤ i - 24 - 16 by omega)]
  · rw [if_neg (by omega : ¬ i < 8), if_neg (by omega : ¬ i < 16),
      if_neg (by omega : ¬ i < 24), if_neg (by omega : ¬ i < 32),
      decide_eq_true (by omega : 8 ≤ i), Bool.true_and,
      testBit_byte_high hb (show 8 ≤ i - 8 by omega)]

/-- Byte-swapping a byte in the high lane moves it to the low lane. -/
theorem swap32_byte24 {b : Nat} (hb : b < 256) :
    swap_byte_order32 (b <<< 24) = b := by
  apply Nat.eq_of_testBit_eq
  intro i
  rw [testBit_swap32]
  simp only [Nat.testBit_shiftLeft]
  rcases Nat.lt_or_ge i 8 with h | h
  · rw [if_pos h, decide_eq_true (by omega : 24 ≤ i + 24), Bool.true_and]
    simp only [Nat.add_sub_cancel]
  rcases Nat.lt_or_ge i 16 with h' | h'
  · rw [if_neg (by omega : ¬ i < 8), if_pos h',
      decide_eq_false (by omega : ¬ 24 ≤ i + 8), Bool.false_and,
      testBit_byte_high hb (show 8 ≤ i from h)]
  rcases Nat.lt_or_ge i 24 with h'' | h''
  · rw [if_neg (by omega : ¬ i < 8), if_neg (by omega : ¬ i < 16),
      if_pos h'', decide_eq_false (by omega : ¬ 24 ≤ i - 8), Bool.false_and,
      testBit_byte_high hb (show 8 ≤ i from h)]
  rcases Nat.lt_or_ge i 32 with h''' | h'''
  · rw [if_neg (by omega : ¬ i < 8), if_neg (by omega : ¬ i < 16),
      if_neg (by omega : ¬ i < 24), if_pos h''',
      decide_eq_false (by omega : ¬ 24 ≤ i - 24), Bool.false_and,
      testBit_byte_high hb (show 8 ≤ i from h)]
  · rw [if_neg (by omega : ¬ i < 8), if_neg (by omega : ¬ i < 16),
      if_neg (by omega : ¬ i < 24), if_neg (by omega : ¬ i < 32),
      testBit_byte_high hb (show 8 ≤ i from h)]

/-- `rotate_left` keeps 32-bit values within 32 bits. -/
theorem rotate_left_lt {v : Nat} (hv : v < 2 ^ 32) (c : Nat) :
    rotate_left v c < 2 ^ 32 := by
  apply lor_lt_two_pow
  · exact Nat.mod_lt _ (by norm_num)
  · calc v >>> (32 - c) ≤ v := by
          rw [Nat.shiftRight_eq_div_pow]
          exact Nat.div_le_self _ _
      _ < 2 ^ 32 := hv

/-! ### The identifier hash: message preparation (`make_id`, registry.h)

The C++ `make_id` receives the literal `const char (&name)[size]`, so
`size` counts the trailing NUL; the hashed bytes are `name[0 .. size-2]`.
Here `name` is the list of those content bytes, so `size = name.length + 1`.
The word array `preprocessed_message` (zero-initialised, of
`aligned_message_size / 4` entries) is a total function `Nat → Nat`, zero
outside the written range exactly as the zero-initialised C++ array. -/

/-- `aligned_message_size`: `(((size + sizeof(uint64_t)) + 63) / 64) * 64`. -/
def aligned_message_size (size : Nat) : Nat :=
  ((size + 8 + 63) / 64) * 64

/-- The first `make_id` loop after `fuel` iterations (`fuel` ranges up to
`size - 1`): word `i / 4` accumulates, by bitwise or, the byte `name[i]`
placed big-endian in its lane (`uint32(name[i]) << ((3 - i % 4) * 8)`) and
byte-swapped. -/
def make_id_message_loop (name : List Nat) : Nat → (Nat → Nat)
  | 0 => fun _ => 0
  | i + 1 => Function.update (make_id_message_loop name i) (i / 4)
      (make_id_message_loop name i (i / 4) |||
        swap_byte_order32 ((name.getD i 0 <<< ((3 - i % 4) * 8)) % 2 ^ 32))

/-- The name loop (all `size - 1 = name.length` iterations) followed by the
`0x80` terminator or-ed into word `(size - 1) / 4`, big-endian in its lane
and byte-swapped. -/
def make_id_msg2 (name : List Nat) : Nat → Nat :=
  Function.update (make_id_message_loop name name.length) (name.length / 4)
    (make_id_message_loop name name.length (name.length / 4) |||
      swap_byte_order32 ((0x80 <<< ((3 - name.length % 4) * 8)) % 2 ^ 32))

/-- The finished `preprocessed_message` word array: name loop, `0x80`
terminator, and the two words of the big-endian 64-bit message bit length
(`message_size = (size - 1) * 8` as `uint64_t`) in the last two slots
(`aligned_message_size / 4 - 2` and `... - 1`). -/
def preprocessed_message (name : List Nat) : Nat → Nat :=
  Function.update (Function.update (make_id_msg2 name)
      (aligned_message_size (name.length + 1) / 4 - 2)
      (swap_byte_order32 ((((name.length * 8) % 2 ^ 64) >>> 32) % 2 ^ 32)))
    (aligned_message_size (name.length + 1) / 4 - 1)
    (swap_byte_order32 (((name.length * 8) % 2 ^ 64) % 2 ^ 32))

/-! ### The identifier hash: specification-side message (spec §4.4)

The spec pads the name bytes with `0x80`, zero-fill and the 64-bit
big-endian bit length up to a multiple of 64 bytes, then reads the padded
stream as big-endian 32-bit words. -/

/-- A value as `w` big-endian bytes (most significant first). -/
def bytesBE (w v : Nat) : List Nat := (toBytesLE w v).reverse

/-- The padded SHA-1 message of the spec: name bytes, `0x80`, zero-fill,
64-bit big-endian bit length, totalling `aligned_message_size` bytes. -/
def padded_bytes (name : List Nat) : List Nat :=
  name ++ 0x80 ::
    (List.replicate (aligned_message_size (name.length + 1) - (name.length + 9)) 0
      ++ bytesBE 8 ((name.length * 8) % 2 ^ 64))

/-- Big-endian 32-bit word `k` of a byte stream. -/
def words_be (bytes : List Nat) (k : Nat) : Nat :=
  bytes.getD (4 * k) 0 <<< 24 ||| bytes.getD (4 * k + 1) 0 <<< 16 |||
    bytes.getD (4 * k + 2) 0 <<< 8 ||| bytes.getD (4 * k + 3) 0

/-- The or-accumulation of the first `c` byte contributions of word `k` of
the `make_id` message loop. -/
def contribOr (name : List Nat) (k : Nat) : Nat → Nat
  | 0 => 0
  | c + 1 => contribOr name k c |||
      swap_byte_order32
        ((name.getD (4 * k + c) 0 <<< ((3 - (4 * k + c) % 4) * 8)) % 2 ^ 32)

/-- Little-endian bytes read back by position: byte `i` of `toBytesLE w v`
is `(v >>> (8 * i)) % 256`. -/
theorem toBytesLE_getD (w : Nat) :
    ∀ v i, i < w → (toBytesLE w v).getD i 0 = (v >>> (8 * i)) % 256 := by
  induction w with
  | zero => intro v i h; omega
  | succ w ih =>
    intro v i h
    match i with
    | 0 => simp [toBytesLE, Nat.shiftRight_zero]
    | i + 1 =>
      show (toBytesLE w (v / 256)).getD i 0 = _
      rw [ih (v / 256) i (by omega)]
      have h8 : v / 256 = v >>> 8 := by
        rw [Nat.shiftRight_eq_div_pow]
      rw [h8, ← Nat.shiftRight_add]
      congr 2
      omega

/-- Zero-fill reads back as zero (in or out of range). -/
theorem replicate_zero_getD (c j : Nat) :
    (List.replicate c (0 : Nat)).getD j 0 = 0 := by
  induction c generalizing j with
  | zero => simp [List.getD]
  | succ c ih =>
    match j with
    | 0 => simp [List.replicate]
    | j + 1 =>
      show (List.replicate c (0 : Nat)).getD j 0 = 0
      exact ih j

/-- Big-endian byte `r` of an 8-byte value is little-endian byte `7 - r`. -/
theorem bytesBE8_getD (m r : Nat) (hr : r < 8) :
    (bytesBE 8 m).getD r 0 = (m >>> (8 * (7 - r))) % 256 := by
  have hlen : (toBytesLE 8 m).length = 8 := toBytesLE_length 8 m
  have hrev : (bytesBE 8 m).getD r 0 = (toBytesLE 8 m).getD (7 - r) 0 := by
    rw [bytesBE, List.getD_eq_getElem _ _ (by simp [hlen]; omega),
      List.getElem_reverse, List.getD_eq_getElem _ _ (by omega)]
    simp [hlen]
  rw [hrev, toBytesLE_getD 8 m (7 - r) (by omega)]

/-- The length of the padded message is `aligned_message_size`. -/
theorem padded_bytes_length (name : List Nat) :
    (padded_bytes name).length = aligned_message_size (name.length + 1) := by
  have h9 : name.length + 9 ≤ aligned_message_size (name.length + 1) := by
    unfold aligned_message_size
    omega
  simp [padded_bytes, bytesBE, toBytesLE_length, List.length_replicate]
  omega

/-- Every byte of the padded message is a byte. -/
theorem padded_bytes_lt (name : List Nat) (hname : ∀ b ∈ name, b < 256) :
    ∀ b ∈ padded_bytes name, b < 256 := by
  intro b hb
  simp only [padded_bytes, List.mem_append, List.mem_cons,
    List.mem_replicate, bytesBE, List.mem_reverse] at hb
  rcases hb with h | h | ⟨_, h⟩ | h
  · exact hname b h
  · omega
  · omega
  · exact toBytesLE_lt 8 _ b h

/-- Any byte read from a byte list (in range or default) is below 256. -/
theorem getD_lt_256 {name : List Nat} (hname : ∀ b ∈ name, b < 256) (j : Nat) :
    name.getD j 0 < 256 := by
  rcases Nat.lt_or_ge j name.length with h | h
  · rw [List.getD_eq_getElem _ _ h]
    exact hname _ (List.getElem_mem h)
  · rw [List.getD_eq_default _ _ h]
    norm_num

/-- Closed form of the `make_id` name loop: word `k` after `len` iterations
is the or-accumulation of the (at most four) contributions whose byte index
lands in word `k`. -/
theorem make_id_message_loop_eq (name : List Nat) (len k : Nat) :
    make_id_message_loop name len k = contribOr name k (min (len - 4 * k) 4) := by
  induction len with
  | zero =>
    show (0 : Nat) = contribOr name k (min (0 - 4 * k) 4)
    rw [show min (0 - 4 * k) 4 = 0 from by omega]
    rfl
  | succ len ih =>
    show Function.update (make_id_message_loop name len) (len / 4)
        (make_id_message_loop name len (len / 4) |||
          swap_byte_order32 ((name.getD len 0 <<< ((3 - len % 4) * 8)) % 2 ^ 32)) k
      = contribOr name k (min (len + 1 - 4 * k) 4)
    rcases Decidable.em (len / 4 = k) with hk | hk
    · have hc : min (len + 1 - 4 * k) 4 = min (len - 4 * k) 4 + 1 := by omega
      have hik : k = len / 4 := hk.symm
      rw [hc, Function.update_apply, if_pos hik, ← hik, ih]
      show _ = contribOr name k (min (len - 4 * k) 4) |||
        swap_byte_order32
          ((name.getD (4 * k + min (len - 4 * k) 4) 0 <<<
            ((3 - (4 * k + min (len - 4 * k) 4) % 4) * 8)) % 2 ^ 32)
      rw [show 4 * k + min (len - 4 * k) 4 = len from by omega, hik]
    · have hc : min (len + 1 - 4 * k) 4 = min (len - 4 * k) 4 := by omega
      rw [hc, Function.update_apply, if_neg (fun h => hk h.symm), ih]

/-- Reading a padded-message byte inside the name region. -/
theorem padded_getD_name {name : List Nat} {j : Nat} (h : j < name.length) :
    (padded_bytes name).getD j 0 = name.getD j 0 :=
  List.getD_append _ _ _ _ h

/-- Reading the `0x80` terminator of the padded message. -/
theorem padded_getD_0x80 (name : List Nat) :
    (padded_bytes name).getD name.length 0 = 0x80 := by
  rw [padded_bytes, List.getD_append_right _ _ _ _ (Nat.le_refl _),
    Nat.sub_self]
  rfl

/-- Reading a padded-message byte inside the zero-fill region. -/
theorem padded_getD_zero (name : List Nat) (t : Nat)
    (h : t < aligned_message_size (name.length + 1) - (name.length + 9)) :
    (padded_bytes name).getD (name.length + 1 + t) 0 = 0 := by
  rw [padded_bytes, List.getD_append_right _ _ _ _ (by omega),
    show name.length + 1 + t - name.length = t + 1 from by omega]
  show (List.replicate (aligned_message_size (name.length + 1) -
      (name.length + 9)) 0 ++ bytesBE 8 ((name.length * 8) % 2 ^ 64)).getD t 0 = 0
  rw [List.getD_append _ _ _ _ (by rw [List.length_replicate]; omega)]
  exact replicate_zero_getD _ _

/-- Reading a padded-message byte inside the trailing length field: byte
`t` of the big-endian 64-bit bit length. -/
theorem padded_getD_tail (name : List Nat) (t : Nat) (ht : t < 8) :
    (padded_bytes name).getD
        (aligned_message_size (name.length + 1) - 8 + t) 0
      = (((name.length * 8) % 2 ^ 64) >>> (8 * (7 - t))) % 256 := by
  have h9 : name.length + 9 ≤ aligned_message_size (name.length + 1) := by
    unfold aligned_message_size
    omega
  rw [padded_bytes, List.getD_append_right _ _ _ _ (by omega),
    show aligned_message_size (name.length + 1) - 8 + t - name.length
      = ((aligned_message_size (name.length + 1) - (name.length + 9)) + t) + 1
      from by omega]
  show (List.replicate (aligned_message_size (name.length + 1) -
      (name.length + 9)) 0 ++ bytesBE 8 ((name.length * 8) % 2 ^ 64)).getD
      ((aligned_message_size (name.length + 1) - (name.length + 9)) + t) 0 = _
  rw [List.getD_append_right _ _ _ _ (by rw [List.length_replicate]; omega),
    List.length_replicate, Nat.add_sub_cancel_left]
  exact bytesBE8_getD _ t ht

/-- Reading past the padded message. -/
theorem padded_getD_past (name : List Nat) (j : Nat)
    (h : aligned_message_size (name.length + 1) ≤ j) :
    (padded_bytes name).getD j 0 = 0 :=
  List.getD_eq_default _ _ (by rw [padded_bytes_length]; exact h)

/-- Assembling four consecutive big-endian bytes of `m`, starting at bit
`s`, yields the 32-bit field of `m` at bit `s`. -/
theorem word_shift_mod (m s : Nat) :
    ((m >>> (s + 24)) % 256) <<< 24 ||| ((m >>> (s + 16)) % 256) <<< 16 |||
      ((m >>> (s + 8)) % 256) <<< 8 ||| ((m >>> s) % 256)
      = (m >>> s) % 2 ^ 32 := by
  rw [show (256 : Nat) = 2 ^ 8 from by norm_num]
  apply Nat.eq_of_testBit_eq
  intro i
  simp only [Nat.testBit_lor, Nat.testBit_shiftLeft, Nat.testBit_mod_two_pow,
    Nat.testBit_shiftRight]
  rcases Nat.lt_or_ge i 8 with h | h
  · simp [show ¬ 24 ≤ i by omega, show ¬ 16 ≤ i by omega,
      show ¬ 8 ≤ i by omega, h, show i < 32 by omega]
  rcases Nat.lt_or_ge i 16 with h' | h'
  · simp [show ¬ 24 ≤ i by omega, show ¬ 16 ≤ i by omega,
      show 8 ≤ i by omega, show i - 8 < 8 by omega, show ¬ i < 8 by omega,
      show i < 32 by omega]
    exact congrArg m.testBit (by omega)
  rcases Nat.lt_or_ge i 24 with h'' | h''
  · simp [show ¬ 24 ≤ i by omega, show 16 ≤ i by omega,
      show 8 ≤ i by omega, show i - 16 < 8 by omega,
      show ¬ i - 8 < 8 by omega, show ¬ i < 8 by omega,
      show i < 32 by omega]
    exact congrArg m.testBit (by omega)
  rcases Nat.lt_or_ge i 32 with h''' | h'''
  · simp [show 24 ≤ i by omega, show 16 ≤ i by omega,
      show 8 ≤ i by omega, show i - 24 < 8 by omega,
      show ¬ i - 16 < 8 by omega, show ¬ i - 8 < 8 by omega,
      show ¬ i < 8 by omega, show i < 32 by omega]
    exact congrArg m.testBit (by omega)
  · simp [show 24 ≤ i by omega, show 16 ≤ i by omega,
      show 8 ≤ i by omega, show ¬ i - 24 < 8 by omega,
      show ¬ i - 16 < 8 by omega, show ¬ i - 8 < 8 by omega,
      show ¬ i < 8 by omega, show ¬ i < 32 by omega]

/-- Word `k` of the C++ `preprocessed_message` array is the byte-swap of
big-endian word `k` of the spec's padded message. -/
theorem preprocessed_message_eq (name : List Nat)
    (hname : ∀ b ∈ name, b < 256) (k : Nat) :
    preprocessed_message name k
      = swap_byte_order32 (words_be (padded_bytes name) k) := by
  have h9 : name.length + 9 ≤ aligned_message_size (name.length + 1) := by
    unfold aligned_message_size
    omega
  have h64 : 64 ≤ aligned_message_size (name.length + 1) := by
    unfold aligned_message_size
    omega
  have h4 : aligned_message_size (name.length + 1) % 4 = 0 := by
    unfold aligned_message_size
    omega
  unfold preprocessed_message
  rw [Function.update_apply]
  rcases Decidable.em (k = aligned_message_size (name.length + 1) / 4 - 1)
    with hk1 | hk1
  · rw [if_pos hk1, words_be, hk1,
      show 4 * (aligned_message_size (name.length + 1) / 4 - 1) + 1
        = aligned_message_size (name.length + 1) - 8 + 5 from by omega,
      show 4 * (aligned_message_size (name.length + 1) / 4 - 1) + 2
        = aligned_message_size (name.length + 1) - 8 + 6 from by omega,
      show 4 * (aligned_message_size (name.length + 1) / 4 - 1) + 3
        = aligned_message_size (name.length + 1) - 8 + 7 from by omega,
      show 4 * (aligned_message_size (name.length + 1) / 4 - 1)
        = aligned_message_size (name.length + 1) - 8 + 4 from by omega,
      padded_getD_tail name 4 (by omega), padded_getD_tail name 5 (by omega),
      padded_getD_tail name 6 (by omega), padded_getD_tail name 7 (by omega),
      show 8 * (7 - 4) = 0 + 24 from by norm_num,
      show 8 * (7 - 5) = 0 + 16 from by norm_num,
      show 8 * (7 - 6) = 0 + 8 from by norm_num,
      show 8 * (7 - 7) = 0 from by norm_num]
    rw [word_shift_mod, Nat.shiftRight_zero]
  rw [if_neg hk1, Function.update_apply]
  rcases Decidable.em (k = aligned_message_size (name.length + 1) / 4 - 2)
    with hk2 | hk2
  · rw [if_pos hk2, words_be, hk2,
      show 4 * (aligned_message_size (name.length + 1) / 4 - 2) + 1
        = aligned_message_size (name.length + 1) - 8 + 1 from by omega,
      show 4 * (aligned_message_size (name.length + 1) / 4 - 2) + 2
        = aligned_message_size (name.length + 1) - 8 + 2 from by omega,
      show 4 * (aligned_message_size (name.length + 1) / 4 - 2) + 3
        = aligned_message_size (name.length + 1) - 8 + 3 from by omega]
    have ht0 := padded_getD_tail name 0 (by omega)
    rw [Nat.add_zero] at ht0
    rw [show 4 * (aligned_message_size (name.length + 1) / 4 - 2)
        = aligned_message_size (name.length + 1) - 8 from by omega,
      ht0, padded_getD_tail name 1 (by omega), padded_getD_tail name 2 (by omega),
      padded_getD_tail name 3 (by omega),
      show 8 * (7 - 0) = 32 + 24 from by norm_num,
      show 8 * (7 - 1) = 32 + 16 from by norm_num,
      show 8 * (7 - 2) = 32 + 8 from by norm_num,
      show 8 * (7 - 3) = 32 from by norm_num,
      word_shift_mod]
  rw [if_neg hk2]
  unfold make_id_msg2
  rw [Function.update_apply]
  rcases Decidable.em (k = name.length / 4) with hk3 | hk3
  · -- the word holding the end of the name and the 0x80 terminator
    rw [if_pos hk3, ← hk3, make_id_message_loop_eq,
      show min (name.length - 4 * k) 4 = name.length % 4 from by omega]
    have hc : name.length % 4 = 0 ∨ name.length % 4 = 1 ∨
        name.length % 4 = 2 ∨ name.length % 4 = 3 := by omega
    rcases hc with hc | hc | hc | hc
    · rw [hc, words_be,
        show 4 * k = name.length from by omega,
        show name.length + 1 = name.length + 1 + 0 from by omega,
        padded_getD_zero name 0 (by omega),
        show name.length + 1 + 0 + 1 = name.length + 1 + 1 from by omega,
        padded_getD_zero name 1 (by omega),
        show name.length + 1 + 0 + 2 = name.length + 1 + 2 from by omega,
        padded_getD_zero name 2 (by omega),
        padded_getD_0x80 name]
      simp only [contribOr, Nat.zero_or, Nat.zero_shiftLeft, Nat.or_zero]
      rw [show ((3 : Nat) - 0) * 8 = 24 from rfl,
        byte_shift_mod32 (by norm_num : (0x80 : Nat) < 256) (by norm_num),
        swap32_byte24 (by norm_num : (0x80 : Nat) < 256)]
    · rw [hc, words_be,
        padded_getD_name (show 4 * k < name.length from by omega),
        show 4 * k + 1 = name.length from by omega, padded_getD_0x80 name,
        show 4 * k + 2 = name.length + 1 + 0 from by omega,
        padded_getD_zero name 0 (by omega),
        show 4 * k + 3 = name.length + 1 + 1 from by omega,
        padded_getD_zero name 1 (by omega)]
      simp only [contribOr, Nat.zero_or, Nat.zero_shiftLeft, Nat.or_zero,
        Nat.add_zero, Nat.mul_mod_right]
      rw [show ((3 : Nat) - 0) * 8 = 24 from rfl,
        show ((3 : Nat) - 1) * 8 = 16 from rfl,
        byte_shift_mod32 (getD_lt_256 hname (4 * k)) (by norm_num),
        byte_shift_mod32 (by norm_num : (0x80 : Nat) < 256) (by norm_num),
        swap32_lor,
        swap32_byte24 (getD_lt_256 hname (4 * k)),
        swap32_byte16 (by norm_num : (0x80 : Nat) < 256)]
    · rw [hc, words_be,
        padded_getD_name (show 4 * k < name.length from by omega),
        padded_getD_name (show 4 * k + 1 < name.length from by omega),
        show 4 * k + 2 = name.length from by omega, padded_getD_0x80 name,
        show 4 * k + 3 = name.length + 1 + 0 from by omega,
        padded_getD_zero name 0 (by omega)]
      simp only [contribOr, Nat.zero_or, Nat.zero_shiftLeft, Nat.or_zero,
        Nat.add_zero, Nat.mul_mod_right, Nat.mul_add_mod]
      rw [show ((3 : Nat) - 0) * 8 = 24 from rfl,
        show ((3 : Nat) - 1 % 4) * 8 = 16 from rfl,
        show ((3 : Nat) - 2) * 8 = 8 from rfl,
        byte_shift_mod32 (getD_lt_256 hname (4 * k)) (by norm_num),
        byte_shift_mod32 (getD_lt_256 hname (4 * k + 1)) (by norm_num),
        byte_shift_mod32 (by norm_num : (0x80 : Nat) < 256) (by norm_num),
        swap32_lor, swap32_lor,
        swap32_byte24 (getD_lt_256 hname (4 * k)),
        swap32_byte16 (getD_lt_256 hname (4 * k + 1)),
        swap32_byte8 (by norm_num : (0x80 : Nat) < 256)]
    · rw [hc, words_be,
        padded_getD_name (show 4 * k < name.length from by omega),
        padded_getD_name (show 4 * k + 1 < name.length from by omega),
        padded_getD_name (show 4 * k + 2 < name.length from by omega),
        show 4 * k + 3 = name.length from by omega, padded_getD_0x80 name]
      simp only [contribOr, Nat.zero_or, Nat.add_zero, Nat.mul_mod_right,
        Nat.mul_add_mod]
      rw [show ((3 : Nat) - 0) * 8 = 24 from rfl,
        show ((3 : Nat) - 1 % 4) * 8 = 16 from rfl,
        show ((3 : Nat) - 2 % 4) * 8 = 8 from rfl,
        show ((3 : Nat) - 3) * 8 = 0 from rfl,
        Nat.shiftLeft_zero,
        byte_shift_mod32 (getD_lt_256 hname (4 * k)) (by norm_num),
        byte_shift_mod32 (getD_lt_256 hname (4 * k + 1)) (by norm_num),
        byte_shift_mod32 (getD_lt_256 hname (4 * k + 2)) (by norm_num),
        Nat.mod_eq_of_lt (show (0x80 : Nat) < 2 ^ 32 from by norm_num),
        swap32_lor, swap32_lor, swap32_lor,
        swap32_byte24 (getD_lt_256 hname (4 * k)),
        swap32_byte16 (getD_lt_256 hname (4 * k + 1)),
        swap32_byte8 (getD_lt_256 hname (4 * k + 2)),
        swap32_byte0 (by norm_num : (0x80 : Nat) < 256)]
  rw [if_neg hk3, make_id_message_loop_eq]
  rcases Nat.lt_or_ge (4 * k + 3) name.length with hfull | hrest
  · -- a word entirely inside the name
    rw [show min (name.length - 4 * k) 4 = 4 from by omega, words_be,
      padded_getD_name (show 4 * k < name.length from by omega),
      padded_getD_name (show 4 * k + 1 < name.length from by omega),
      padded_getD_name (show 4 * k + 2 < name.length from by omega),
      padded_getD_name (show 4 * k + 3 < name.length from by omega)]
    simp only [contribOr, Nat.mul_add_mod, Nat.add_zero, Nat.mul_mod_right,
      Nat.zero_or]
    rw [show ((3 : Nat) - 0) * 8 = 24 from rfl,
      show ((3 : Nat) - 1 % 4) * 8 = 16 from rfl,
      show ((3 : Nat) - 2 % 4) * 8 = 8 from rfl,
      show ((3 : Nat) - 3 % 4) * 8 = 0 from rfl,
      Nat.shiftLeft_zero,
      byte_shift_mod32 (getD_lt_256 hname (4 * k)) (by norm_num),
      byte_shift_mod32 (getD_lt_256 hname (4 * k + 1)) (by norm_num),
      byte_shift_mod32 (getD_lt_256 hname (4 * k + 2)) (by norm_num),
      Nat.mod_eq_of_lt (lt_trans (getD_lt_256 hname (4 * k + 3)) (by norm_num)),
      swap32_lor, swap32_lor, swap32_lor,
      swap32_byte24 (getD_lt_256 hname (4 * k)),
      swap32_byte16 (getD_lt_256 hname (4 * k + 1)),
      swap32_byte8 (getD_lt_256 hname (4 * k + 2)),
      swap32_byte0 (getD_lt_256 hname (4 * k + 3))]
  -- k ≠ len / 4 and the word is not inside the name: len < 4 * k
  have hlt : name.length < 4 * k := by omega
  rw [show min (name.length - 4 * k) 4 = 0 from by omega]
  rcases Nat.lt_or_ge k (aligned_message_size (name.length + 1) / 4 - 2)
    with hk4 | hk4
  · -- a word entirely inside the zero fill
    obtain ⟨d, hd⟩ : ∃ d, 4 * k = name.length + 1 + d :=
      ⟨4 * k - name.length - 1, by omega⟩
    rw [words_be, hd,
      show name.length + 1 + d + 1 = name.length + 1 + (d + 1) from by omega,
      show name.length + 1 + d + 2 = name.length + 1 + (d + 2) from by omega,
      show name.length + 1 + d + 3 = name.length + 1 + (d + 3) from by omega,
      padded_getD_zero name d (by omega),
      padded_getD_zero name (d + 1) (by omega),
      padded_getD_zero name (d + 2) (by omega),
      padded_getD_zero name (d + 3) (by omega)]
    simp only [Nat.zero_shiftLeft, Nat.or_zero, swap32_zero]
    rfl
  · -- a word beyond the padded message
    have hpast : aligned_message_size (name.length + 1) ≤ 4 * k := by omega
    rw [words_be, padded_getD_past name (4 * k) (by omega),
      padded_getD_past name (4 * k + 1) (by omega),
      padded_getD_past name (4 * k + 2) (by omega),
      padded_getD_past name (4 * k + 3) (by omega)]
    simp only [Nat.zero_shiftLeft, Nat.or_zero, swap32_zero]
    rfl

/-! ### The identifier hash: compression (`make_id` main loops, registry.h)

The per-round constant and mixing function, the 16→80 word extension and
the 80-round compression.  The hash state `(a, b, c, d, e)` and the five
running sums `(h0, …, h4)` are quintuples of 32-bit words.  In the C++
code every `w[j]` is stored byte-swapped (the message words were built
swapped), so the extension swaps its inputs to operate on logical values
and swaps the result back, and the main loop reads `swap(w[j])`; the
specification-side functions below are the same loops over the logical
(unswapped) words of spec §4.4. -/

/-- The SHA-1 round constant `k` for round `j`. -/
def sha1_k (j : Nat) : Nat :=
  if j ≤ 19 then 0x5A827999
  else if j ≤ 39 then 0x6ED9EBA1
  else if j ≤ 59 then 0x8F1BBCDC
  else 0xCA62C1D6

/-- The SHA-1 mixing function `f` for round `j` (`~b` on a `uint32_t` is
`b ^^^ 0xFFFFFFFF`). -/
def sha1_f (j b c d : Nat) : Nat :=
  if j ≤ 19 then (b &&& c) ||| ((b ^^^ 0xFFFFFFFF) &&& d)
  else if j ≤ 39 then b ^^^ c ^^^ d
  else if j ≤ 59 then (b &&& c) ||| (b &&& d) ||| (c &&& d)
  else b ^^^ c ^^^ d

/-- One SHA-1 round on state `(a, b, c, d, e)` with round word `wj`:
`temp = rotl(a, 5) + f + e + k + wj` in `uint32_t` arithmetic, then
`(a, b, c, d, e) := (temp, a, rotl(b, 30), c, d)`. -/
def sha1_round (j wj : Nat) (s : Nat × Nat × Nat × Nat × Nat) :
    Nat × Nat × Nat × Nat × Nat :=
  ((rotate_left s.1 5 + sha1_f j s.2.1 s.2.2.1 s.2.2.2.1 + s.2.2.2.2 +
      sha1_k j + wj) % 2 ^ 32,
    s.1, rotate_left s.2.1 30, s.2.2.1, s.2.2.2.1)

/-- The `make_id` word extension: `fuel` steps of
`w[j] = swap(rotl(swap(w[j-3] ^ w[j-8] ^ w[j-14] ^ w[j-16]), 1))`, each
appending one word (`j` is the current length of `ws`). -/
def make_id_extend (ws : List Nat) : Nat → List Nat
  | 0 => ws
  | fuel + 1 => make_id_extend (ws ++ [swap_byte_order32 (rotate_left
      (swap_byte_order32 (ws.getD (ws.length - 3) 0 ^^^
        ws.getD (ws.length - 8) 0 ^^^ ws.getD (ws.length - 14) 0 ^^^
        ws.getD (ws.length - 16) 0)) 1)]) fuel

/-- The specification-side word extension on logical words:
`w[j] = rotl(w[j-3] ^ w[j-8] ^ w[j-14] ^ w[j-16], 1)`. -/
def sha1_extend (ws : List Nat) : Nat → List Nat
  | 0 => ws
  | fuel + 1 => sha1_extend (ws ++ [rotate_left
      (ws.getD (ws.length - 3) 0 ^^^ ws.getD (ws.length - 8) 0 ^^^
        ws.getD (ws.length - 14) 0 ^^^ ws.getD (ws.length - 16) 0) 1]) fuel

/-- One 512-bit chunk of `make_id`: 80 rounds reading `swap(w[j])` from
the swapped word list, then the five wrap-around additions into `h`. -/
def make_id_chunk (h : Nat × Nat × Nat × Nat × Nat) (ws : List Nat) :
    Nat × Nat × Nat × Nat × Nat :=
  let s := (List.range 80).foldl
    (fun s j => sha1_round j (swap_byte_order32 (ws.getD j 0)) s) h
  ((h.1 + s.1) % 2 ^ 32, (h.2.1 + s.2.1) % 2 ^ 32,
    (h.2.2.1 + s.2.2.1) % 2 ^ 32, (h.2.2.2.1 + s.2.2.2.1) % 2 ^ 32,
    (h.2.2.2.2 + s.2.2.2.2) % 2 ^ 32)

/-- One 512-bit chunk of canonical SHA-1 on logical words. -/
def sha1_chunk (h : Nat × Nat × Nat × Nat × Nat) (ws : List Nat) :
    Nat × Nat × Nat × Nat × Nat :=
  let s := (List.range 80).foldl
    (fun s j => sha1_round j (ws.getD j 0) s) h
  ((h.1 + s.1) % 2 ^ 32, (h.2.1 + s.2.1) % 2 ^ 32,
    (h.2.2.1 + s.2.2.1) % 2 ^ 32, (h.2.2.2.1 + s.2.2.2.1) % 2 ^ 32,
    (h.2.2.2.2 + s.2.2.2.2) % 2 ^ 32)

/-- The SHA-1 initial state. -/
def sha1_h0 : Nat × Nat × Nat × Nat × Nat :=
  (0x67452301, 0xEFCDAB89, 0x98BADCFE, 0x10325476, 0xC3D2E1F0)

/-- All blocks of `make_id`: for each 16-word slice of the (swapped)
message array, extend to 80 words and run a chunk. -/
def make_id_blocks (msg : Nat → Nat) (nblocks : Nat) :
    Nat × Nat × Nat × Nat × Nat :=
  (List.range nblocks).foldl (fun h blk =>
    make_id_chunk h (make_id_extend
      ((List.range 16).map fun j => msg (16 * blk + j)) 64)) sha1_h0

/-- All blocks of canonical SHA-1 over the logical big-endian words. -/
def sha1_blocks (msg : Nat → Nat) (nblocks : Nat) :
    Nat × Nat × Nat × Nat × Nat :=
  (List.range nblocks).foldl (fun h blk =>
    sha1_chunk h (sha1_extend
      ((List.range 16).map fun j => msg (16 * blk + j)) 64)) sha1_h0

/-- `make_id` (registry.h): hash the preprocessed message and return
`swap_byte_order((uint64(h0) << 32) | h1)`. -/
def make_id (name : List Nat) : Nat :=
  let h := make_id_blocks (preprocessed_message name)
    (aligned_message_size (name.length + 1) / 4 / 16)
  swap_byte_order64 ((h.1 <<< 32) ||| h.2.1)

/-- Spec §4.4: canonical SHA-1 of the name bytes; the identifier is the
64-bit value `(h0 << 32) | h1` of the final state, byte-swapped to
little-endian (the first 8 digest bytes read as a little-endian integer). -/
def sha1_id_le (name : List Nat) : Nat :=
  let h := sha1_blocks (words_be (padded_bytes name))
    ((padded_bytes name).length / 64)
  swap_byte_order64 ((h.1 <<< 32) ||| h.2.1)

/-- Reading through a byte-swapped word list is byte-swapping the read
(out of range, both sides give zero). -/
theorem getD_map_swap32 (l : List Nat) (i : Nat) :
    (l.map swap_byte_order32).getD i 0 = swap_byte_order32 (l.getD i 0) := by
  rcases Nat.lt_or_ge i l.length with h | h
  · rw [List.getD_eq_getElem _ _ (by simpa using h), List.getElem_map,
      List.getD_eq_getElem _ _ h]
  · rw [List.getD_eq_default _ _ (by simpa using h),
      List.getD_eq_default _ _ h, swap32_zero]

/-- A default-zero read from a list of 32-bit words is a 32-bit word. -/
theorem getD_lt_of_forall {l : List Nat} (hl : ∀ x ∈ l, x < 2 ^ 32)
    (i : Nat) : l.getD i 0 < 2 ^ 32 := by
  rcases Nat.lt_or_ge i l.length with h | h
  · rw [List.getD_eq_getElem _ _ h]
    exact hl _ (List.getElem_mem h)
  · rw [List.getD_eq_default _ _ h]
    norm_num

/-- The specification-side word extension preserves 32-bit boundedness. -/
theorem sha1_extend_lt (fuel : Nat) : ∀ ws, (∀ x ∈ ws, x < 2 ^ 32) →
    ∀ x ∈ sha1_extend ws fuel, x < 2 ^ 32 := by
  induction fuel with
  | zero => exact fun ws h => h
  | succ fuel ih =>
    intro ws h x hx
    refine ih _ ?_ x hx
    intro y hy
    rcases List.mem_append.mp hy with hy | hy
    · exact h y hy
    · rw [List.mem_singleton] at hy
      subst hy
      exact rotate_left_lt (Nat.xor_lt_two_pow (Nat.xor_lt_two_pow
        (Nat.xor_lt_two_pow (getD_lt_of_forall h _) (getD_lt_of_forall h _))
        (getD_lt_of_forall h _)) (getD_lt_of_forall h _)) 1

/-- The `make_id` extension on swapped words is the byte-swap of the
specification extension on logical words. -/
theorem make_id_extend_map (fuel : Nat) : ∀ ws, (∀ x ∈ ws, x < 2 ^ 32) →
    make_id_extend (ws.map swap_byte_order32) fuel
      = (sha1_extend ws fuel).map swap_byte_order32 := by
  induction fuel with
  | zero => exact fun ws _ => rfl
  | succ fuel ih =>
    intro ws h
    have hX : ((ws.getD (ws.length - 3) 0 ^^^ ws.getD (ws.length - 8) 0) ^^^
        ws.getD (ws.length - 14) 0) ^^^ ws.getD (ws.length - 16) 0 < 2 ^ 32 :=
      Nat.xor_lt_two_pow (Nat.xor_lt_two_pow (Nat.xor_lt_two_pow
        (getD_lt_of_forall h _) (getD_lt_of_forall h _))
        (getD_lt_of_forall h _)) (getD_lt_of_forall h _)
    show make_id_extend (ws.map swap_byte_order32 ++
      [swap_byte_order32 (rotate_left (swap_byte_order32
        ((ws.map swap_byte_order32).getD
            ((ws.map swap_byte_order32).length - 3) 0 ^^^
          (ws.map swap_byte_order32).getD
            ((ws.map swap_byte_order32).length - 8) 0 ^^^
          (ws.map swap_byte_order32).getD
            ((ws.map swap_byte_order32).length - 14) 0 ^^^
          (ws.map swap_byte_order32).getD
            ((ws.map swap_byte_order32).length - 16) 0)) 1)]) fuel = _
    rw [List.length_map, getD_map_swap32, getD_map_swap32, getD_map_swap32,
      getD_map_swap32, ← swap32_xor, ← swap32_xor, ← swap32_xor,
      swap32_swap32 _ hX,
      show [swap_byte_order32 (rotate_left (((ws.getD (ws.length - 3) 0 ^^^
          ws.getD (ws.length - 8) 0) ^^^ ws.getD (ws.length - 14) 0) ^^^
          ws.getD (ws.length - 16) 0) 1)]
        = List.map swap_byte_order32 [rotate_left (((ws.getD (ws.length - 3) 0 ^^^
          ws.getD (ws.length - 8) 0) ^^^ ws.getD (ws.length - 14) 0) ^^^
          ws.getD (ws.length - 16) 0) 1] from rfl,
      ← List.map_append]
    exact ih _ (by
      intro y hy
      rcases List.mem_append.mp hy with hy | hy
      · exact h y hy
      · rw [List.mem_singleton] at hy
        subst hy
        exact rotate_left_lt hX 1)

/-- One `make_id` chunk on swapped words is the canonical chunk on the
logical words. -/
theorem make_id_chunk_eq (h : Nat × Nat × Nat × Nat × Nat) (ws : List Nat)
    (hws : ∀ x ∈ ws, x < 2 ^ 32) :
    make_id_chunk h (ws.map swap_byte_order32) = sha1_chunk h ws := by
  simp only [make_id_chunk, sha1_chunk]
  have hfold : (List.range 80).foldl (fun s j =>
        sha1_round j (swap_byte_order32
          ((ws.map swap_byte_order32).getD j 0)) s) h
      = (List.range 80).foldl (fun s j => sha1_round j (ws.getD j 0) s) h := by
    apply List.foldl_ext
    intro s j _
    rw [getD_map_swap32, swap32_swap32 _ (getD_lt_of_forall hws j)]
  rw [hfold]

/-- Every big-endian word of a byte stream is a 32-bit value. -/
theorem words_be_lt (bytes : List Nat) (h : ∀ b ∈ bytes, b < 256) (k : Nat) :
    words_be bytes k < 2 ^ 32 := by
  have hb : ∀ j, bytes.getD j 0 < 256 := getD_lt_256 h
  have hsh : ∀ j, ∀ s ≤ 24, bytes.getD j 0 <<< s < 2 ^ 32 := by
    intro j s hs
    rw [Nat.shiftLeft_eq]
    calc bytes.getD j 0 * 2 ^ s ≤ 255 * 2 ^ 24 :=
          Nat.mul_le_mul (by have := hb j; omega)
            (Nat.pow_le_pow_right (by norm_num) hs)
      _ < 2 ^ 32 := by norm_num
  exact lor_lt_two_pow (lor_lt_two_pow (lor_lt_two_pow
    (hsh _ 24 (by norm_num)) (hsh _ 16 (by norm_num)))
    (hsh _ 8 (by norm_num))) (lt_trans (hb _) (by norm_num))

/-- `make_id`'s block loop over byte-swapped message words is the canonical
block loop over the logical words. -/
theorem make_id_blocks_eq (msgS : Nat → Nat) (nblocks : Nat)
    (hmsg : ∀ k, msgS k < 2 ^ 32) :
    make_id_blocks (fun k => swap_byte_order32 (msgS k)) nblocks
      = sha1_blocks msgS nblocks := by
  unfold make_id_blocks sha1_blocks
  apply List.foldl_ext
  intro h blk _
  have hws : ∀ x ∈ (List.range 16).map fun j => msgS (16 * blk + j),
      x < 2 ^ 32 := by
    intro x hx
    rcases List.mem_map.mp hx with ⟨j, _, hj⟩
    rw [← hj]
    exact hmsg _
  have hmap : ((List.range 16).map fun j =>
        swap_byte_order32 (msgS (16 * blk + j)))
      = ((List.range 16).map fun j => msgS (16 * blk + j)).map
          swap_byte_order32 := by
    rw [List.map_map]
    rfl
  rw [hmap, make_id_extend_map 64 _ hws,
    make_id_chunk_eq h _ (sha1_extend_lt 64 _ hws)]

/-! ## Claim theorems -/

/-- C1 (counterexample): the round-trip law fails as universally stated.  A
resizable sequence of `2 ^ 32` one-byte elements saves without error, but its
32-bit length prefix narrows to zero, so loading the saved bytes reconstructs
the empty sequence instead of the original. -/
theorem C1_counterexample :
    (saveVal (.seq (.fund 1)) (.list (List.replicate (2 ^ 32) (.nat 0)))).2 = none ∧
      (loadVal (.seq (.fund 1))
          ⟨(saveVal (.seq (.fund 1)) (.list (List.replicate (2 ^ 32) (.nat 0)))).1, 0⟩).1 ≠
        some (.list (List.replicate (2 ^ 32) (.nat 0))) := by
  have hsv : saveVal (.seq (.fund 1)) (.list (List.replicate (2 ^ 32) (.nat 0)))
      = (toBytesLE 4 0 ++ List.replicate (2 ^ 32) 0, none) := by
    rw [saveVal_seq]
    rw [saveElems_sound (fun x => saveVal (.fund 1) x) (List.replicate (2 ^ 32) (.nat 0))
      (fun _ _ => rfl)]
    rw [List.map_replicate]
    rw [show (saveVal (.fund 1) (.nat 0)).1 = [0] from rfl]
    rw [flatten_replicate_singleton]
    rw [List.length_replicate]
    rw [show toSizeType (2 ^ 32) = 0 from Nat.mod_self _]
  refine ⟨by rw [hsv], ?_⟩
  rw [hsv]
  dsimp only
  rw [loadVal, viewRead_at 4 (toBytesLE 4 0 ++ List.replicate (2 ^ 32) 0) []
    (toBytesLE 4 0) (List.replicate (2 ^ 32) 0) 0 (by rw [List.nil_append]) rfl
    (toBytesLE_length ..)]
  dsimp only
  rw [fromBytesLE_toBytesLE 4 0 (by norm_num)]
  dsimp only [loadElems]
  intro hc
  simp only [Option.some.injEq, Value.list.injEq] at hc
  have := congrArg List.length hc
  simp only [List.length_nil, List.length_replicate] at this
  exact absurd this.symm (by norm_num)

/-- C1 (amended): for every supported type `T` and every serializable value
`v` of `T` (well-formed for `T`, all owning handles full) in which every
container size — and, on the contiguous fast path, every
`size * sizeof(element)` byte count — is below `2 ^ 32`, saving raises no
error and loading the saved bytes reconstructs a value equal to `v`; this
holds for every dispatcher branch (fundamentals, enums, resizable sequences
on both the per-element and the contiguous fast path, associative containers,
fixed arrays, pairs, tuples, owning handles, user serialize hooks). -/
theorem C1_round_trip (t : Ty) (v : Value)
    (hwf : wfb t v = true) (hsz : sizeOkb t v = true) :
    (saveVal t v).2 = none ∧
      (loadVal t ⟨(saveVal t v).1, 0⟩).1 = some v := by
  have h := rt_main t v hwf hsz
  refine ⟨h.1, ?_⟩
  have h2 := h.2 [] []
  simp only [List.nil_append, List.append_nil, List.length_nil, Nat.zero_add] at h2
  rw [h2]

/-- C1 witness: the spec's scenario 1, a pair of 4-byte scalars
`(1337, 1338)`, round-trips. -/
theorem C1_round_trip_witness :
    wfb (.pair (.fund 4) (.fund 4)) (.pair (.nat 1337) (.nat 1338)) = true ∧
      sizeOkb (.pair (.fund 4) (.fund 4)) (.pair (.nat 1337) (.nat 1338)) = true ∧
      (loadVal (.pair (.fund 4) (.fund 4))
          ⟨(saveVal (.pair (.fund 4) (.fund 4)) (.pair (.nat 1337) (.nat 1338))).1, 0⟩).1 =
        some (.pair (.nat 1337) (.nat 1338)) :=
  ⟨by decide, by decide,
    (C1_round_trip (.pair (.fund 4) (.fund 4)) (.pair (.nat 1337) (.nat 1338))
      (by decide) (by decide)).2⟩

/-- C2: for a polymorphic type registered under identifier `I` (a 64-bit
value), saving an owning handle to it writes the 8 bytes of `I`
(little-endian on the wire) followed by exactly the static payload that the
type's own serialize hook produces, and loading reads the identifier, looks
up the registered construction procedure, constructs the concrete registered
type and deserializes the payload into it. -/
theorem C2_polymorphic_envelope (r : Registry) (obj : PolyObj) (I : Nat) (m : SMethod)
    (hI : I < 2 ^ 64)
    (h1 : r.typeToId.lookup obj.descriptor = some I)
    (h2 : r.idToMethod.lookup I = some m)
    (h3 : m.descriptor = obj.descriptor)
    (hwf : wfb m.ty obj.payload = true) (hsz : sizeOkb m.ty obj.payload = true) :
    registry_serialize_saving r obj
        = (toBytesLE 8 I ++ (saveVal m.ty obj.payload).1, none) ∧
      serialize_unique_ptr_poly_saving r (some obj)
        = (toBytesLE 8 I ++ (saveVal m.ty obj.payload).1, none) ∧
      ∀ rest, registry_serialize_loading r
          ⟨toBytesLE 8 I ++ (saveVal m.ty obj.payload).1 ++ rest, 0⟩ =
        (some ⟨m.descriptor, obj.payload⟩,
          ⟨toBytesLE 8 I ++ (saveVal m.ty obj.payload).1 ++ rest,
            8 + (saveVal m.ty obj.payload).1.length⟩, none) := by
  have hrt := rt_main m.ty obj.payload hwf hsz
  have hsv : saveVal m.ty obj.payload = ((saveVal m.ty obj.payload).1, none) := by
    rcases hx : saveVal m.ty obj.payload with ⟨bs, e⟩
    have := hrt.1
    rw [hx] at this
    simp only at this
    subst this
    rfl
  have hsave : registry_serialize_saving r obj
      = (toBytesLE 8 I ++ (saveVal m.ty obj.payload).1, none) := by
    rw [registry_serialize_saving, h1]
    dsimp only
    rw [h2]
    dsimp only
    rw [if_pos h3, hsv]
  refine ⟨hsave, by rw [serialize_unique_ptr_poly_saving, hsave], fun rest => ?_⟩
  rw [registry_serialize_loading,
    viewRead_at 8 _ [] (toBytesLE 8 I) ((saveVal m.ty obj.payload).1 ++ rest) _ (by simp)
      (by simp) (toBytesLE_length ..)]
  dsimp only
  rw [fromBytesLE_toBytesLE 8 I (by simpa using hI), h2]
  dsimp only
  rw [RtP_load hrt _ (toBytesLE 8 I) rest _ (by simp) (by simp [toBytesLE_length])]

/-- C2 witness: one registered type (descriptor 7, one-byte payload) under
identifier 5; envelope and reload behave as stated. -/
theorem C2_polymorphic_envelope_witness :
    registry_serialize_saving ⟨[(5, ⟨7, .fund 1⟩)], [(7, 5)]⟩ ⟨7, .nat 3⟩
        = (toBytesLE 8 5 ++ (saveVal (.fund 1) (.nat 3)).1, none) ∧
      ∀ rest, registry_serialize_loading ⟨[(5, ⟨7, .fund 1⟩)], [(7, 5)]⟩
          ⟨toBytesLE 8 5 ++ (saveVal (.fund 1) (.nat 3)).1 ++ rest, 0⟩ =
        (some ⟨7, .nat 3⟩,
          ⟨toBytesLE 8 5 ++ (saveVal (.fund 1) (.nat 3)).1 ++ rest,
            8 + (saveVal (.fund 1) (.nat 3)).1.length⟩, none) := by
  have h := C2_polymorphic_envelope ⟨[(5, ⟨7, .fund 1⟩)], [(7, 5)]⟩ ⟨7, .nat 3⟩ 5 ⟨7, .fund 1⟩
    (by decide) (by decide) (by decide) (by decide) (by decide) (by decide)
  exact ⟨h.1, h.2.2⟩

/-- `make_id` computes, for every ASCII name, exactly the spec's canonical
SHA-1 identifier: the 64-bit value `(h0 << 32) | h1` of the final SHA-1
state over the padded name, byte-swapped to little-endian. -/
theorem C3_identifier_stability (name : List Nat)
    (hname : ∀ b ∈ name, b < 128) :
    make_id name = sha1_id_le name := by
  have h256 : ∀ b ∈ name, b < 256 := fun b hb =>
    lt_trans (hname b hb) (by norm_num)
  simp only [make_id, sha1_id_le]
  have hfun : preprocessed_message name
      = fun k => swap_byte_order32 (words_be (padded_bytes name) k) :=
    funext (preprocessed_message_eq name h256)
  have hcnt : (padded_bytes name).length / 64
      = aligned_message_size (name.length + 1) / 4 / 16 := by
    rw [padded_bytes_length, Nat.div_div_eq_div_mul]
  rw [hfun, hcnt, make_id_blocks_eq _ _
    (fun k => words_be_lt _ (padded_bytes_lt name h256) k)]

theorem C3_identifier_stability_witness :
    (∀ b ∈ [118, 49, 58, 58, 112, 101, 114, 115, 111, 110], b < 128) ∧
      make_id [118, 49, 58, 58, 112, 101, 114, 115, 111, 110]
        = sha1_id_le [118, 49, 58, 58, 112, 101, 114, 115, 111, 110] :=
  ⟨by decide, C3_identifier_stability _ (by decide)⟩

/-- C4: on the view-style input archive, loading a scalar of width `w > 0`
raises `out_of_range` exactly when fewer than `w` bytes remain from the
cursor; on failure the whole state (cursor included) is untouched, and on
success the cursor advances by exactly `w` and the input is unchanged. -/
theorem C4_out_of_range (w : Nat) (st : RState) (hw : 0 < w) :
    ((loadVal (.fund w) st).2.2 = some .outOfRange ↔ st.input.length - st.offset < w) ∧
      ((loadVal (.fund w) st).2.2 = some .outOfRange → (loadVal (.fund w) st).2.1 = st) ∧
      ((loadVal (.fund w) st).2.2 = none →
        (loadVal (.fund w) st).2.1.offset = st.offset + w ∧
          (loadVal (.fund w) st).2.1.input = st.input) := by
  by_cases hcond : st.input.length < w + st.offset
  · rw [loadVal, viewRead_fail w st hcond]
    dsimp only
    exact ⟨⟨fun _ => by omega, fun _ => rfl⟩, fun _ => rfl, fun hc => by simp at hc⟩
  · rw [loadVal, viewRead, if_neg hcond]
    dsimp only
    rw [not_lt] at hcond
    exact ⟨⟨fun hc => by simp at hc, fun hc => absurd hc (by omega)⟩,
      fun hc => by simp at hc, fun _ => ⟨rfl, rfl⟩⟩

/-- C4 witness: a 4-byte read from a 2-byte buffer fails out-of-range and
leaves the state untouched; from a 6-byte buffer it succeeds and advances the
cursor by 4. -/
theorem C4_out_of_range_witness :
    ((loadVal (.fund 4) ⟨[1, 2], 0⟩).2.2 = some .outOfRange →
        (loadVal (.fund 4) ⟨[1, 2], 0⟩).2.1 = ⟨[1, 2], 0⟩) ∧
      ((loadVal (.fund 4) ⟨[1, 2, 3, 4, 5, 6], 0⟩).2.2 = none →
        (loadVal (.fund 4) ⟨[1, 2, 3, 4, 5, 6], 0⟩).2.1.offset = 0 + 4 ∧
          (loadVal (.fund 4) ⟨[1, 2, 3, 4, 5, 6], 0⟩).2.1.input = [1, 2, 3, 4, 5, 6]) :=
  ⟨(C4_out_of_range 4 ⟨[1, 2], 0⟩ (by decide)).2.1,
    (C4_out_of_range 4 ⟨[1, 2, 3, 4, 5, 6], 0⟩ (by decide)).2.2⟩

/-- C5: saving an empty owning single-object handle — `unique_ptr` or
`shared_ptr`, non-polymorphic (through the dispatcher) or polymorphic
(through the registry entry point) — fails with
`attempt_to_serialize_null_pointer_error` before any bytes of it are
written, and a top-level operation saving such a handle leaves the sink
exactly as it was (its length unchanged after the end-of-operation
truncation to the used length). -/
theorem C5_null_rejection (a : OutVec) (t : Ty) (r : Registry)
    (hinv : a.data.length = a.msize) :
    saveVal (.owning t) .null = ([], some .attemptToSerializeNullPointer) ∧
      serialize_unique_ptr_poly_saving r none
        = ([], some .attemptToSerializeNullPointer) ∧
      memory_output_archive_op a (.owning t) .null
        = (a, some .attemptToSerializeNullPointer) ∧
      memory_output_archive_apply a (serialize_unique_ptr_poly_saving r none)
        = (a, some .attemptToSerializeNullPointer) := by
  refine ⟨rfl, rfl, ?_, ?_⟩
  · rw [memory_output_archive_op]
    exact memory_output_archive_apply_nil a _ hinv
  · exact memory_output_archive_apply_nil a _ hinv

/-- C5 witness: over a 3-byte sink with all bytes in use, saving a null
handle reports the null error and leaves the sink identical. -/
theorem C5_null_rejection_witness :
    memory_output_archive_op ⟨[9, 9, 9], 3⟩ (.owning (.fund 1)) .null
        = (⟨[9, 9, 9], 3⟩, some .attemptToSerializeNullPointer) ∧
      serialize_unique_ptr_poly_saving ⟨[], []⟩ none
        = ([], some .attemptToSerializeNullPointer) :=
  ⟨(C5_null_rejection ⟨[9, 9, 9], 3⟩ (.fund 1) ⟨[], []⟩ (by decide)).2.2.1,
    (C5_null_rejection ⟨[9, 9, 9], 3⟩ (.fund 1) ⟨[], []⟩ (by decide)).2.1⟩

/-- C6: the registry is monotone.  `registry::add` uses `emplace` on both
maps, so registering never removes or replaces an entry: every previously
resolving key of either map resolves to the same value afterwards; if the
identifier is already present the id-to-method map is entirely unchanged
(the new method cannot shadow the old one), and likewise for an already
present type descriptor; and `registry_add` is a total function — it raises
no error. -/
theorem C6_registry_monotone (r : Registry) (id desc : Nat) (m : SMethod) :
    (∀ id', (r.idToMethod.lookup id').isSome →
        (registry_add r id desc m).idToMethod.lookup id' = r.idToMethod.lookup id') ∧
      (∀ d', (r.typeToId.lookup d').isSome →
        (registry_add r id desc m).typeToId.lookup d' = r.typeToId.lookup d') ∧
      ((r.idToMethod.lookup id).isSome →
        (registry_add r id desc m).idToMethod = r.idToMethod) ∧
      ((r.typeToId.lookup desc).isSome →
        (registry_add r id desc m).typeToId = r.typeToId) := by
  refine ⟨fun id' h => emplace_lookup_preserved _ _ _ _ h,
    fun d' h => emplace_lookup_preserved _ _ _ _ h,
    fun h => ?_, fun h => ?_⟩
  · simp only [registry_add, emplace, if_pos h]
  · simp only [registry_add, emplace, if_pos h]

/-- C6 witness: re-registering identifier 5 (with a different method and
descriptor) leaves the singleton registry's id map unchanged and the old
entry still resolving. -/
theorem C6_registry_monotone_witness :
    ((Registry.mk [(5, ⟨7, .fund 1⟩)] [(7, 5)]).idToMethod.lookup 5).isSome = true ∧
      (registry_add ⟨[(5, ⟨7, .fund 1⟩)], [(7, 5)]⟩ 5 9 ⟨9, .fund 2⟩).idToMethod
        = [(5, ⟨7, .fund 1⟩)] :=
  ⟨by decide,
    (C6_registry_monotone ⟨[(5, ⟨7, .fund 1⟩)], [(7, 5)]⟩ 5 9 ⟨9, .fund 2⟩).2.2.1
      (by decide)⟩

/-- C7: when a polymorphic load constructs a registered concrete type whose
dynamic type cannot be downcast to the caller's requested static base type,
the `polymorphic_type_mismatch_error` failure is raised and the caller's
handle is not modified (the loaded object itself is dropped with its local
temporary handle). -/
theorem C7_downcast_failure (r : Registry) (canCastToType : Nat → Bool) (st st' : RState)
    (object : Option PolyObj) (loaded : PolyObj)
    (h1 : registry_serialize_loading r st = (some loaded, st', none))
    (h2 : canCastToType loaded.descriptor = false) :
    serialize_unique_ptr_poly_loading r canCastToType st object
      = (object, st', some .polymorphicTypeMismatch) := by
  rw [serialize_unique_ptr_poly_loading, h1]
  dsimp only
  rw [h2]
  rfl

/-- C7 witness: loading an envelope for the registered descriptor 7 with a
static type that descriptor 7 does not downcast to leaves the handle `none`
and raises the mismatch failure. -/
theorem C7_downcast_failure_witness :
    serialize_unique_ptr_poly_loading ⟨[(5, ⟨7, .fund 1⟩)], [(7, 5)]⟩ (fun _ => false)
        ⟨toBytesLE 8 5 ++ [3], 0⟩ none
      = (none, ⟨toBytesLE 8 5 ++ [3], 9⟩, some .polymorphicTypeMismatch) :=
  C7_downcast_failure ⟨[(5, ⟨7, .fund 1⟩)], [(7, 5)]⟩ (fun _ => false)
    ⟨toBytesLE 8 5 ++ [3], 0⟩ ⟨toBytesLE 8 5 ++ [3], 9⟩ none ⟨7, .nat 3⟩ rfl rfl

/-- C8 (counterexample): the claim "otherwise both save and load fall back to
per-element dispatch" is false.  For a resizable container of
fundamental-type elements with random-access iteration but no raw-data
accessor (e.g. `std::deque<int>`), the fast path does not apply, the
per-element *saving* overload applies, but the per-element *loading*
overload's guard (`is_class || !random_access`) also fails — no loading
overload exists at all. -/
theorem C8_counterexample :
    (ContainerCaps.mk false true true false).wf = true ∧
      resizable_fast_applicable ⟨false, true, true, false⟩ = false ∧
      resizable_slow_saving_applicable ⟨false, true, true, false⟩ = true ∧
      resizable_slow_loading_applicable ⟨false, true, true, false⟩ = false := by
  decide

/-- C8 (amended): the fast bulk path is selected, in both directions, exactly
when the element type is fundamental or an enumeration, iteration is
random-access, and a raw-data accessor exists; the two overloads of one
direction are never both applicable; when the fast path does not apply, save
always falls back to the per-element overload, but load falls back exactly
when the element is a class type or iteration is not random-access — a
fundamental-element random-access container without a raw-data accessor has
no applicable loading overload. -/
theorem C8_fast_path_selection (c : ContainerCaps) (hwf : c.wf = true) :
    (resizable_fast_applicable c = true ↔
        c.valueTypeIsFundamentalOrEnum = true ∧ c.randomAccessIterator = true ∧
          c.hasDataMemberFunction = true) ∧
      ¬(resizable_fast_applicable c = true ∧ resizable_slow_saving_applicable c = true) ∧
      ¬(resizable_fast_applicable c = true ∧ resizable_slow_loading_applicable c = true) ∧
      (resizable_fast_applicable c = false → resizable_slow_saving_applicable c = true) ∧
      (resizable_slow_loading_applicable c = true ↔
        c.valueTypeIsClass = true ∨ c.randomAccessIterator = false) := by
  rcases c with ⟨cls, fe, ra, hd⟩
  revert hwf
  cases cls <;> cases fe <;> cases ra <;> cases hd <;> decide

/-- C8 witness: a contiguous container of fundamentals (class = false,
fundamental, random-access, `data()` present) selects the fast path. -/
theorem C8_fast_path_selection_witness :
    resizable_fast_applicable ⟨false, true, true, true⟩ = true :=
  ((C8_fast_path_selection ⟨false, true, true, true⟩ (by decide)).1).2
    ⟨rfl, rfl, rfl⟩

/-- C9: at the end of each top-level operation of the owning input archive —
success and failure alike — exactly the bytes consumed by the operation are
erased from the front of the source buffer (the consumed count never exceeds
the buffer, and consumed prefix plus residue reassemble the original
buffer), and the read offset is reset so that the next operation begins at
byte zero of the residual buffer. -/
theorem C9_owning_cleanup (input : List Nat) (t : Ty) :
    (memory_input_archive_op input t).2.2
        = input.drop ((loadVal t ⟨input, 0⟩).2.1.offset) ∧
      (loadVal t ⟨input, 0⟩).2.1.offset ≤ input.length ∧
      input.take ((loadVal t ⟨input, 0⟩).2.1.offset) ++ (memory_input_archive_op input t).2.2
        = input := by
  have hs := loadVal_stepOk t ⟨input, 0⟩ (by simp)
  have hop : (memory_input_archive_op input t).2.2
      = input.drop ((loadVal t ⟨input, 0⟩).2.1.offset) := by
    rw [memory_input_archive_op]
  exact ⟨hop, hs.2.2, by rw [hop, List.take_append_drop]⟩

/-- C10: the 32-bit length prefix written for a resizable sequence (either
path) or an associative container equals the container's size reduced modulo
`2 ^ 32` (the `size_t` size is narrowed by `static_cast` to the 32-bit
`size_type`); for a container of fewer than `2 ^ 32` elements the prefix
decodes to the exact size, and for `2 ^ 32` or more elements any value the
loader reconstructs from the saved bytes differs from the original, so the
round trip cannot hold. -/
theorem C10_length_prefix_narrowing (t : Ty) (vs : List Value) (w : Nat) :
    (saveVal (.seq t) (.list vs)).1.take 4 = toBytesLE 4 (vs.length % 2 ^ 32) ∧
      (saveVal (.assoc t) (.list vs)).1.take 4 = toBytesLE 4 (vs.length % 2 ^ 32) ∧
      (saveVal (.seqFast w) (.list vs)).1.take 4 = toBytesLE 4 (vs.length % 2 ^ 32) ∧
      (vs.length < 2 ^ 32 →
        fromBytesLE ((saveVal (.seq t) (.list vs)).1.take 4) = vs.length) ∧
      (2 ^ 32 ≤ vs.length → ∀ res st',
        loadVal (.seq t) ⟨(saveVal (.seq t) (.list vs)).1, 0⟩ = (some res, st', none) →
          res ≠ .list vs) := by
  have hseq : (saveVal (.seq t) (.list vs)).1.take 4 = toBytesLE 4 (vs.length % 2 ^ 32) := by
    simp only [saveVal]
    rcases hse : saveElems (fun x => saveVal t x) vs with ⟨bs, e⟩
    exact List.take_left' (toBytesLE_length ..)
  have hassoc : (saveVal (.assoc t) (.list vs)).1.take 4
      = toBytesLE 4 (vs.length % 2 ^ 32) := by
    simp only [saveVal]
    rcases hse : saveElems (fun x => saveVal t x) vs with ⟨bs, e⟩
    exact List.take_left' (toBytesLE_length ..)
  have hfast : (saveVal (.seqFast w) (.list vs)).1.take 4
      = toBytesLE 4 (vs.length % 2 ^ 32) := by
    simp only [saveVal]
    split
    · exact List.take_of_length_le (le_of_eq (toBytesLE_length ..))
    · exact List.take_left' (toBytesLE_length ..)
  refine ⟨hseq, hassoc, hfast, fun hlt => ?_, fun hge res st' hload => ?_⟩
  · rw [hseq, Nat.mod_eq_of_lt hlt]
    exact fromBytesLE_toBytesLE 4 vs.length (by simpa using hlt)
  · rcases hse : saveElems (fun x => saveVal t x) vs with ⟨bs, e⟩
    have hsv : (saveVal (.seq t) (.list vs)).1
        = toBytesLE 4 (vs.length % 2 ^ 32) ++ bs := by
      simp only [saveVal, hse]
      rfl
    rw [hsv] at hload
    rw [loadVal, viewRead_at 4 _ [] (toBytesLE 4 (vs.length % 2 ^ 32)) bs _ (by simp)
      (by simp) (toBytesLE_length ..)] at hload
    dsimp only at hload
    rw [fromBytesLE_toBytesLE 4 (vs.length % 2 ^ 32)
      (by simpa using Nat.mod_lt vs.length (show 0 < 2 ^ 32 by norm_num))] at hload
    rcases hle : loadElems (fun s => loadVal t s) (vs.length % 2 ^ 32)
        ⟨toBytesLE 4 (vs.length % 2 ^ 32) ++ bs, 0 + 4⟩ with ⟨ovs, st2, e2⟩
    rw [hle] at hload
    rcases ovs with _ | ws
    · simp at hload
    rcases e2 with _ | e2
    · simp only [Prod.mk.injEq, Option.some.injEq] at hload
      rw [← hload.1]
      intro hc
      simp only [Value.list.injEq] at hc
      have hlen := loadElems_length _ _ _ _ _ (by rw [hle])
      rw [hc] at hlen
      have := Nat.mod_lt vs.length (show 0 < 2 ^ 32 by norm_num)
      omega
    · simp at hload

/-- C10 witness: a one-element byte sequence carries the exact prefix `1`. -/
theorem C10_length_prefix_narrowing_witness :
    fromBytesLE ((saveVal (.seq (.fund 1)) (.list [.nat 7])).1.take 4) = 1 :=
  (C10_length_prefix_narrowing (.fund 1) [.nat 7] 0).2.2.2.1 (by decide)

end Bitsery
